import Mathlib

/-!
Verification development for the maze-search repository
(`mazeSearchNOIMAGE.py`, `mazeSearch.py`, `DepthFirst.py`).

The grid is a list of rows of cell symbols (`"#"` is a wall); cells are
integer (row, column) pairs.  The three strategies of
`mazeSearchNOIMAGE.py` (depth-first, breadth-first, A*) and the
mark-on-discovery breadth-first search of `DepthFirst.py` are embedded as
fuel-indexed loops over explicit search states.  `mazeSearch.py`'s
`breadth_first_search` and `depth_first_search` are line-for-line the same
algorithms as the ones in `mazeSearchNOIMAGE.py`, so they share the same
embedding.

The Python priority queue in `a_star_search` is a `heapq` of
`(cost, cell)` tuples; `heappop` returns the least tuple under Python's
lexicographic tuple comparison, and duplicated values are indistinguishable,
so the heap is modelled as a list (in insertion order) from which `extractMin`
removes the leftmost least entry under the same lexicographic order.
-/

namespace MazeSearch

abbrev Cell := ℤ × ℤ

abbrev Maze := List (List String)

/-- Width used for the bounds check: the length of the first row
(`len(maze[0])` in the source). -/
def mazeWidth (maze : Maze) : ℕ := (maze.headD []).length

/-- `is_valid_location` of `mazeSearchNOIMAGE.py` / `mazeSearch.py` (equal to
`isValidLocation` of `DepthFirst.py`): a location is valid when the row and
column are in bounds and the cell symbol is not the wall `"#"`. -/
def is_valid_location (maze : Maze) (loc : Cell) : Bool :=
  if loc.1 < 0 || (maze.length : ℤ) ≤ loc.1 || loc.2 < 0 || (mazeWidth maze : ℤ) ≤ loc.2 then
    false
  else if (maze.getD loc.1.toNat []).getD loc.2.toNat "" = "#" then
    false
  else
    true

/-- The four orthogonal neighbour coordinates in the source's fixed order:
up (row-1), right (col+1), down (row+1), left (col-1). -/
def adjacentCells (loc : Cell) : List Cell :=
  [(loc.1 - 1, loc.2), (loc.1, loc.2 + 1), (loc.1 + 1, loc.2), (loc.1, loc.2 - 1)]

/-- `get_valid_adjacent` of `mazeSearchNOIMAGE.py` / `mazeSearch.py`: iterate
over the four neighbours in order and append the valid ones. -/
def get_valid_adjacent (maze : Maze) (loc : Cell) : List Cell :=
  (adjacentCells loc).foldl
    (fun validPos n => if is_valid_location maze n then validPos ++ [n] else validPos) []

/-- `getValidNeighbors` of `DepthFirst.py`: the same four candidates filtered
by validity (a list comprehension in the source). -/
def getValidNeighbors (maze : Maze) (loc : Cell) : List Cell :=
  (adjacentCells loc).filter (fun n => is_valid_location maze n)

/-- Manhattan-distance heuristic `heuristic_cost` of `mazeSearchNOIMAGE.py`. -/
def heuristic_cost (node goal : Cell) : ℕ :=
  (node.1 - goal.1).natAbs + (node.2 - goal.2).natAbs

/-- `reveal_path`: walk parent links from `current` back to `start` and return
the path from `start` to `current`.  The Python loop is totalised with fuel;
`none` models a broken parent chain (a `KeyError` or divergence in Python). -/
def reveal_path (parent : Cell → Option Cell) (start : Cell) : ℕ → Cell → Option (List Cell)
  | 0, current => if current = start then some [start] else none
  | fuel + 1, current =>
    if current = start then some [start]
    else
      match parent current with
      | none => none
      | some p => (reveal_path parent start fuel p).map (fun l => l ++ [current])

/-- Overwrite the parent pointers of the cells in `ns` with `cur`
(the per-neighbour `parent[n] = current` assignments of one expansion). -/
def updParent (parent : Cell → Option Cell) (ns : List Cell) (cur : Cell) :
    Cell → Option Cell :=
  fun x => if x ∈ ns then some cur else parent x

/-- Search state of the stack/queue searches: frontier, visited set,
parent map and expansion counter. -/
structure SState where
  frontier : List Cell
  visited : Finset Cell
  parent : Cell → Option Cell
  explored : ℕ

/-- Result of a `mazeSearchNOIMAGE.py` search: optional path, expansion count
and the visited set (the elapsed-time component is instrumentation and is not
modelled). -/
structure SearchResult where
  path : Option (List Cell)
  explored : ℕ
  visitedSet : Finset Cell
  deriving DecidableEq

/-- Result of `DepthFirst.py`'s searches, which do not return the visited set. -/
structure PathCountResult where
  path : Option (List Cell)
  explored : ℕ
  deriving DecidableEq

/-- The initial state shared by the searches: the frontier holds `start`,
nothing is visited, the parent map is empty. -/
def searchInit (start : Cell) : SState :=
  ⟨[start], ∅, fun _ => none, 0⟩

/-- Neighbours admitted by the mark-on-expansion searches: valid and not in
the visited set (`if n not in visitedNodes`). -/
def admissibleExp (maze : Maze) (vis : Finset Cell) (current : Cell) : List Cell :=
  (get_valid_adjacent maze current).filter (fun n => decide (n ∉ vis))

/-- `depth_first_search` of `mazeSearchNOIMAGE.py` (identical to the one in
`mazeSearch.py`), fuel-indexed.  The Python stack `list.pop()` takes the last
appended element; the frontier list here keeps the top of the stack at the
head, so appending neighbours in order becomes consing in order. -/
def depth_first_search (maze : Maze) (start goal : Cell) :
    ℕ → SState → Option SearchResult
  | 0, _ => none
  | fuel + 1, s =>
    match s.frontier with
    | [] => some ⟨none, s.explored, s.visited⟩
    | current :: rest =>
      if current = goal then
        (reveal_path s.parent start (s.explored + 1) current).map
          (fun p => ⟨some p, s.explored + 1, insert current s.visited⟩)
      else
        depth_first_search maze start goal fuel
          ⟨(admissibleExp maze (insert current s.visited) current).foldl
              (fun st n => n :: st) rest,
           insert current s.visited,
           updParent s.parent (admissibleExp maze (insert current s.visited) current) current,
           s.explored + 1⟩

/-- `breadth_first_search` of `mazeSearchNOIMAGE.py` (identical to the one in
`mazeSearch.py`): the frontier is a FIFO queue, popped at the head, with
admitted neighbours appended at the back. -/
def breadth_first_search (maze : Maze) (start goal : Cell) :
    ℕ → SState → Option SearchResult
  | 0, _ => none
  | fuel + 1, s =>
    match s.frontier with
    | [] => some ⟨none, s.explored, s.visited⟩
    | current :: rest =>
      if current = goal then
        (reveal_path s.parent start (s.explored + 1) current).map
          (fun p => ⟨some p, s.explored + 1, insert current s.visited⟩)
      else
        breadth_first_search maze start goal fuel
          ⟨rest ++ admissibleExp maze (insert current s.visited) current,
           insert current s.visited,
           updParent s.parent (admissibleExp maze (insert current s.visited) current) current,
           s.explored + 1⟩

/-- `bfs` of `DepthFirst.py` (mark on discovery): admitted neighbours are
added to the visited set at enqueue time. -/
def bfsDiscovery (maze : Maze) (start goal : Cell) :
    ℕ → SState → Option PathCountResult
  | 0, _ => none
  | fuel + 1, s =>
    match s.frontier with
    | [] => some ⟨none, s.explored⟩
    | current :: rest =>
      if current = goal then
        (reveal_path s.parent start (s.explored + 1) current).map
          (fun p => ⟨some p, s.explored + 1⟩)
      else
        bfsDiscovery maze start goal fuel
          ⟨rest ++ (getValidNeighbors maze current).filter
              (fun n => decide (n ∉ insert current s.visited)),
           insert current s.visited ∪
             ((getValidNeighbors maze current).filter
               (fun n => decide (n ∉ insert current s.visited))).toFinset,
           updParent s.parent
             ((getValidNeighbors maze current).filter
               (fun n => decide (n ∉ insert current s.visited))) current,
           s.explored + 1⟩

/-- A* state: heap of `(cost, cell)` entries in insertion order, visited set,
parent map, cost map (`costPath`, a partial map) and expansion counter. -/
structure AState where
  heap : List (ℕ × Cell)
  visited : Finset Cell
  parent : Cell → Option Cell
  costPath : Cell → Option ℕ
  explored : ℕ

/-- Python tuple comparison `(cost, (row, col)) <= (cost', (row', col'))`:
lexicographic on the cost, then the row, then the column. -/
def entryLe (e₁ e₂ : ℕ × Cell) : Bool :=
  if e₁.1 < e₂.1 then true
  else if e₂.1 < e₁.1 then false
  else if e₁.2.1 < e₂.2.1 then true
  else if e₂.2.1 < e₁.2.1 then false
  else decide (e₁.2.2 ≤ e₂.2.2)

/-- `heapq.heappop`: remove and return the least entry under `entryLe`
(the leftmost one among equal least entries; equal tuples are
indistinguishable, so this is observationally the heap's behaviour). -/
def extractMin : List (ℕ × Cell) → Option ((ℕ × Cell) × List (ℕ × Cell))
  | [] => none
  | e :: rest =>
    match extractMin rest with
    | none => some (e, [])
    | some (m, rest') => if entryLe e m then some (e, rest) else some (m, e :: rest')

/-- Initial A* state: heap `[(0, start)]`, cost map `{start: 0}`. -/
def astarInit (start : Cell) : AState :=
  ⟨[(0, start)], ∅, fun _ => none, fun x => if x = start then some 0 else none, 0⟩

/-- Neighbours admitted by the A* relaxation:
`if n not in visitedNodes or newCost < costPath[n]`. -/
def admissibleAstar (maze : Maze) (vis : Finset Cell) (cost : Cell → Option ℕ)
    (newCost : ℕ) (current : Cell) : List Cell :=
  (get_valid_adjacent maze current).filter
    (fun n => decide (n ∉ vis) || decide (newCost < (cost n).getD 0))

/-- One iteration of `a_star_search`: pop the least entry, count and mark it,
test the goal, otherwise relax the neighbours.  `.inl` is a returned result
(`none` standing for a broken parent chain during reconstruction),
`.inr` the successor state. -/
def astarStep (maze : Maze) (start goal : Cell) (s : AState) :
    (Option SearchResult) ⊕ AState :=
  match extractMin s.heap with
  | none => Sum.inl (some ⟨none, s.explored, s.visited⟩)
  | some ((_, current), rest) =>
    if current = goal then
      Sum.inl ((reveal_path s.parent start (s.explored + 1) current).map
        (fun p => ⟨some p, s.explored + 1, insert current s.visited⟩))
    else
      Sum.inr
        ⟨rest ++ (admissibleAstar maze (insert current s.visited) s.costPath
              ((s.costPath current).getD 0 + 1) current).map
              (fun n => (((s.costPath current).getD 0 + 1) + heuristic_cost n goal, n)),
         insert current s.visited,
         updParent s.parent
           (admissibleAstar maze (insert current s.visited) s.costPath
             ((s.costPath current).getD 0 + 1) current) current,
         fun x =>
           if x ∈ admissibleAstar maze (insert current s.visited) s.costPath
               ((s.costPath current).getD 0 + 1) current then
             some ((s.costPath current).getD 0 + 1)
           else s.costPath x,
         s.explored + 1⟩

/-- `a_star_search` of `mazeSearchNOIMAGE.py`, fuel-indexed. -/
def a_star_search (maze : Maze) (start goal : Cell) :
    ℕ → AState → Option SearchResult
  | 0, _ => none
  | fuel + 1, s =>
    match astarStep maze start goal s with
    | Sum.inl r => r
    | Sum.inr s' => a_star_search maze start goal fuel s'

/-- The trace of A* states: `astarStates k` is the state after `k` loop
iterations (`none` once the loop has returned). -/
def astarStates (maze : Maze) (start goal : Cell) : ℕ → Option AState
  | 0 => some (astarInit start)
  | k + 1 =>
    (astarStates maze start goal k).bind fun s =>
      match astarStep maze start goal s with
      | Sum.inl _ => none
      | Sum.inr s' => some s'

/-- The spec's grid invariant: a non-empty rectangular grid. -/
def RectGrid (maze : Maze) : Prop :=
  maze ≠ [] ∧ ∀ row ∈ maze, row.length = mazeWidth maze

instance (maze : Maze) : Decidable (RectGrid maze) := by
  unfold RectGrid; infer_instance

/-- A 3×4 grid with a single wall at `(0, 1)`: row 0 is `. # . .`, rows 1
and 2 are open. -/
def cexMaze : Maze :=
  [[".", "#", ".", "."], [".", ".", ".", "."], [".", ".", ".", "."]]

/-- A fully open 3×4 grid. -/
def openMaze : Maze :=
  [[".", ".", ".", "."], [".", ".", ".", "."], [".", ".", ".", "."]]

/-- A 3×3 grid whose middle column is a wall: the right column is not
reachable from the left column. -/
def splitMaze : Maze :=
  [[".", "#", "."], [".", "#", "."], [".", "#", "."]]

/-- `reachN maze start n x` holds when there is a walk of exactly `n`
orthogonal moves from `start` to `x` in which every cell after `start` is a
valid (in-bounds, non-wall) location — the moves generated by
`get_valid_adjacent`. -/
def reachN (maze : Maze) (start : Cell) : ℕ → Cell → Bool
  | 0, x => decide (x = start)
  | n + 1, x =>
    is_valid_location maze x && (adjacentCells x).any (fun y => reachN maze start n y)

/-! ### Basic facts about the grid primitives -/

theorem get_valid_adjacent_eq_filter (maze : Maze) (loc : Cell) :
    get_valid_adjacent maze loc =
      (adjacentCells loc).filter (fun n => is_valid_location maze n) := by
  have h : ∀ (l acc : List Cell),
      l.foldl (fun validPos n =>
          if is_valid_location maze n then validPos ++ [n] else validPos) acc
        = acc ++ l.filter (fun n => is_valid_location maze n) := by
    intro l
    induction l with
    | nil => intro acc; simp
    | cons x xs ih =>
      intro acc
      cases hx : is_valid_location maze x <;> simp [hx, ih, List.filter_cons]
  simpa using h (adjacentCells loc) []

theorem get_valid_adjacent_eq_getValidNeighbors (maze : Maze) (loc : Cell) :
    get_valid_adjacent maze loc = getValidNeighbors maze loc :=
  get_valid_adjacent_eq_filter maze loc

theorem mem_get_valid_adjacent {maze : Maze} {loc n : Cell} :
    n ∈ get_valid_adjacent maze loc ↔
      n ∈ adjacentCells loc ∧ is_valid_location maze n = true := by
  simp [get_valid_adjacent_eq_filter, List.mem_filter]

theorem adjacentCells_symm {x y : Cell} : y ∈ adjacentCells x ↔ x ∈ adjacentCells y := by
  simp only [adjacentCells, List.mem_cons, List.not_mem_nil, or_false, Prod.ext_iff]
  constructor <;> (intro h; omega)

theorem self_not_mem_adjacentCells (x : Cell) : x ∉ adjacentCells x := by
  simp only [adjacentCells, List.mem_cons, List.not_mem_nil, or_false, Prod.ext_iff]
  omega

theorem adjacentCells_nodup (x : Cell) : (adjacentCells x).Nodup := by
  simp only [adjacentCells, List.nodup_cons, List.mem_cons, List.not_mem_nil, or_false,
    List.nodup_nil, and_true, Prod.mk.injEq, not_or, not_and, true_implies,
    not_false_eq_true]
  omega

theorem adjacentCells_sum {x y : Cell} (h : y ∈ adjacentCells x) :
    y.1 + y.2 = x.1 + x.2 + 1 ∨ y.1 + y.2 = x.1 + x.2 - 1 := by
  simp only [adjacentCells, List.mem_cons, List.not_mem_nil, or_false, Prod.ext_iff] at h
  omega

/-! ### Reachability -/

/-- `x` can be reached from `start` by some number of valid moves. -/
def Reachable (maze : Maze) (start x : Cell) : Prop :=
  ∃ n, reachN maze start n x = true

theorem reachN_zero_iff {m : Maze} {a x : Cell} : reachN m a 0 x = true ↔ x = a := by
  simp [reachN]

theorem reachN_succ_iff {m : Maze} {a x : Cell} {n : ℕ} :
    reachN m a (n + 1) x = true ↔
      is_valid_location m x = true ∧ ∃ y ∈ adjacentCells x, reachN m a n y = true := by
  simp [reachN, List.any_eq_true]

theorem reachN_step {m : Maze} {a y x : Cell} {n : ℕ}
    (hy : reachN m a n y = true) (hx : x ∈ get_valid_adjacent m y) :
    reachN m a (n + 1) x = true := by
  rcases mem_get_valid_adjacent.mp hx with ⟨hadj, hval⟩
  exact reachN_succ_iff.mpr ⟨hval, y, adjacentCells_symm.mp hadj, hy⟩

theorem reachable_start (m : Maze) (a : Cell) : Reachable m a a :=
  ⟨0, reachN_zero_iff.mpr rfl⟩

theorem reachable_of_adj {m : Maze} {a y x : Cell}
    (hy : Reachable m a y) (hx : x ∈ get_valid_adjacent m y) : Reachable m a x := by
  obtain ⟨n, hn⟩ := hy
  exact ⟨n + 1, reachN_step hn hx⟩

theorem reachN_parity {m : Maze} {a : Cell} {n : ℕ} {x : Cell}
    (h : reachN m a n x = true) : Even ((n : ℤ) + x.1 + x.2 + a.1 + a.2) := by
  induction n generalizing x with
  | zero =>
    have hx := reachN_zero_iff.mp h
    subst hx
    exact ⟨x.1 + x.2, by push_cast; ring⟩
  | succ n ih =>
    obtain ⟨-, y, hadj, hy⟩ := reachN_succ_iff.mp h
    obtain ⟨k, hk⟩ := ih hy
    rcases adjacentCells_sum hadj with hs | hs
    · exact ⟨k, by push_cast at hk ⊢; omega⟩
    · exact ⟨k + 1, by push_cast at hk ⊢; omega⟩

/-! ### A distance function for a fixed maze and start -/

/-- `δ` behaves as the shortest-walk distance from `start`: it is a lower
bound on every walk length, and attained for reachable cells. -/
def IsDistFn (m : Maze) (a : Cell) (δ : Cell → ℕ) : Prop :=
  ∀ x, (∀ n, reachN m a n x = true → δ x ≤ n) ∧
    (Reachable m a x → reachN m a (δ x) x = true)

theorem exists_isDistFn (m : Maze) (a : Cell) : ∃ δ, IsDistFn m a δ := by
  classical
  refine ⟨fun x => if h : ∃ n, reachN m a n x = true then Nat.find h else 0, fun x => ?_⟩
  dsimp only
  constructor
  · intro n hn
    rw [dif_pos ⟨n, hn⟩]
    exact Nat.find_le hn
  · intro hx
    rw [dif_pos (show ∃ n, reachN m a n x = true from hx)]
    exact Nat.find_spec hx

section DistFn

variable {m : Maze} {a : Cell} {δ : Cell → ℕ}

theorem IsDistFn.le (hδ : IsDistFn m a δ) {n : ℕ} {x : Cell}
    (hn : reachN m a n x = true) : δ x ≤ n :=
  (hδ x).1 n hn

theorem IsDistFn.reach (hδ : IsDistFn m a δ) {x : Cell}
    (hx : Reachable m a x) : reachN m a (δ x) x = true :=
  (hδ x).2 hx

theorem IsDistFn.start (hδ : IsDistFn m a δ) : δ a = 0 :=
  Nat.le_zero.mp (hδ.le (reachN_zero_iff.mpr rfl))

theorem IsDistFn.eq_zero (hδ : IsDistFn m a δ) {x : Cell}
    (hx : Reachable m a x) (h0 : δ x = 0) : x = a := by
  have h := hδ.reach hx
  rw [h0] at h
  exact reachN_zero_iff.mp h

theorem IsDistFn.adj_le (hδ : IsDistFn m a δ) {x y : Cell}
    (hy : Reachable m a y) (hx : x ∈ get_valid_adjacent m y) : δ x ≤ δ y + 1 :=
  hδ.le (reachN_step (hδ.reach hy) hx)

theorem IsDistFn.adj_ne (hδ : IsDistFn m a δ) {x y : Cell}
    (hx : Reachable m a x) (hy : Reachable m a y)
    (hadj : y ∈ adjacentCells x) : δ x ≠ δ y := by
  intro heq
  obtain ⟨k₁, h₁⟩ := reachN_parity (hδ.reach hx)
  obtain ⟨k₂, h₂⟩ := reachN_parity (hδ.reach hy)
  rcases adjacentCells_sum hadj with h | h <;> omega

end DistFn

/-! ### Path reconstruction -/

/-- One step of a reconstructed path: the second cell is a valid neighbour of
the first (orthogonally adjacent, in bounds and not a wall). -/
def StepOK (m : Maze) (u v : Cell) : Prop := v ∈ get_valid_adjacent m u

/-- If the parent map descends a measure `μ` inside a set `V` of cells via
valid adjacencies, then `reveal_path` succeeds from any cell of `V` given at
least `μ x` fuel, and produces a well-formed start-to-`x` path. -/
theorem reveal_path_spec (m : Maze) (a : Cell) (P : Cell → Option Cell) (V : Finset Cell)
    (μ : Cell → ℕ)
    (hchain : ∀ x ∈ V, ∀ p, P x = some p → p ∈ V ∧ x ∈ get_valid_adjacent m p ∧ μ p < μ x)
    (hdef : ∀ x ∈ V, x ≠ a → (P x).isSome = true) :
    ∀ (k : ℕ) (x : Cell), μ x ≤ k → x ∈ V → ∀ fuel, μ x ≤ fuel →
      ∃ l, reveal_path P a fuel x = some l ∧ l ≠ [] ∧ l.head? = some a ∧
        l.getLast? = some x ∧ l.Chain' (StepOK m) ∧ l.length ≤ μ x + 1 ∧
        l.Nodup ∧ (∀ y ∈ l, y = x ∨ y ∈ V) ∧ ∀ y ∈ l, μ y ≤ μ x := by
  intro k
  induction k using Nat.strong_induction_on with
  | _ k ih =>
    intro x hμk hxV fuel hfuel
    by_cases hxa : x = a
    · subst hxa
      refine ⟨[x], ?_, by simp, by simp, by simp, by simp, by simp, by simp, ?_, ?_⟩
      · cases fuel <;> simp [reveal_path]
      · intro y hy; simp at hy; exact Or.inl hy
      · intro y hy; simp at hy; subst hy; exact le_refl _
    · obtain ⟨p, hp⟩ := Option.isSome_iff_exists.mp (hdef x hxV hxa)
      obtain ⟨hpV, hadj, hlt⟩ := hchain x hxV p hp
      cases fuel with
      | zero => omega
      | succ fuel' =>
        obtain ⟨lp, hrev, hne, hhead, hlast, hchainp, hlen, hnodup, hmem, hμall⟩ :=
          ih (μ p) (by omega) p (le_refl _) hpV fuel' (by omega)
        refine ⟨lp ++ [x], ?_, by simp, ?_, by simp, ?_, ?_, ?_, ?_, ?_⟩
        · show (if x = a then some [a]
            else match P x with
              | none => none
              | some p => (reveal_path P a fuel' p).map (fun l => l ++ [x])) = _
          rw [if_neg hxa, hp]
          dsimp only
          rw [hrev]
          rfl
        · rw [List.head?_append_of_ne_nil _ hne]
          exact hhead
        · refine List.chain'_append.mpr ⟨hchainp, by simp, ?_⟩
          intro u hu v hv
          rw [hlast] at hu
          simp at hu hv
          subst hu; subst hv
          exact hadj
        · simp only [List.length_append, List.length_singleton]
          omega
        · refine List.nodup_append.mpr ⟨hnodup, by simp, ?_⟩
          intro y hy hy'
          simp at hy'
          subst hy'
          have := hμall y hy
          omega
        · intro y hy
          rcases List.mem_append.mp hy with hy | hy
          · rcases hmem y hy with rfl | hyV
            · exact Or.inr hpV
            · exact Or.inr hyV
          · simp at hy; exact Or.inl hy
        · intro y hy
          rcases List.mem_append.mp hy with hy | hy
          · have := hμall y hy; omega
          · simp at hy; subst hy; exact le_refl _

/-- A chain of valid neighbour steps starting at `a` witnesses reachability
with the path's edge count. -/
theorem chain'_reachN (m : Maze) (a : Cell) :
    ∀ (l : List Cell) (x : Cell), l.Chain' (StepOK m) → l.head? = some a →
      l.getLast? = some x → reachN m a (l.length - 1) x = true := by
  intro l
  induction l using List.reverseRecOn with
  | nil => intro x _ h _; simp at h
  | append_singleton l' y ih =>
    intro x hchain hhead hlast
    have hyx : y = x := by
      have h : (l' ++ [y]).getLast? = some y := by simp
      rw [h] at hlast
      exact Option.some_injective _ hlast
    subst hyx
    cases l' with
    | nil =>
      have hya : y = a := by simpa using hhead
      simp [hya, reachN_zero_iff]
    | cons h t =>
      obtain ⟨hc₁, -, hlink⟩ := List.chain'_append.mp hchain
      obtain ⟨u, hu⟩ := Option.isSome_iff_exists.mp
        (List.getLast?_isSome.mpr (List.cons_ne_nil h t))
      have hstep : StepOK m u y := hlink u hu y (by simp)
      have hhead' : (h :: t).head? = some a := by
        rw [List.head?_append_of_ne_nil _ (List.cons_ne_nil h t)] at hhead
        exact hhead
      have hr := ih u hc₁ hhead' hu
      have hlen : (h :: t).length - 1 + 1 = (h :: t).length := by simp
      have := reachN_step hr hstep
      rw [hlen] at this
      simpa using this

/-! ### Shared helper lemmas for the search loops -/

theorem mem_admissibleExp {m : Maze} {vis : Finset Cell} {current x : Cell} :
    x ∈ admissibleExp m vis current ↔
      x ∈ get_valid_adjacent m current ∧ x ∉ vis := by
  simp [admissibleExp, List.mem_filter]

theorem updParent_isSome {P : Cell → Option Cell} {ns : List Cell} {cur x : Cell}
    (h : (P x).isSome = true ∨ x ∈ ns) :
    ((updParent P ns cur) x).isSome = true := by
  unfold updParent
  rcases h with h | h
  · split <;> simp [h]
  · rw [if_pos h]; rfl

theorem updParent_eq_some {P : Cell → Option Cell} {ns : List Cell} {cur x p : Cell}
    (h : (updParent P ns cur) x = some p) :
    (x ∈ ns ∧ p = cur) ∨ (x ∉ ns ∧ P x = some p) := by
  unfold updParent at h
  by_cases hx : x ∈ ns
  · rw [if_pos hx] at h
    exact Or.inl ⟨hx, (Option.some_injective _ h).symm⟩
  · rw [if_neg hx] at h
    exact Or.inr ⟨hx, h⟩

theorem reachable_valid_or_start {m : Maze} {a x : Cell} (h : Reachable m a x) :
    is_valid_location m x = true ∨ x = a := by
  obtain ⟨n, hn⟩ := h
  cases n with
  | zero => exact Or.inr (reachN_zero_iff.mp hn)
  | succ n => exact Or.inl (reachN_succ_iff.mp hn).1

theorem is_valid_location_bounds {m : Maze} {x : Cell}
    (h : is_valid_location m x = true) :
    0 ≤ x.1 ∧ x.1 < (m.length : ℤ) ∧ 0 ≤ x.2 ∧ x.2 < (mazeWidth m : ℤ) := by
  unfold is_valid_location at h
  split at h
  · exact absurd h (by simp)
  · next hc =>
    simp only [Bool.or_eq_true, decide_eq_true_eq, not_or] at hc
    push_neg at hc
    refine ⟨?_, ?_, ?_, ?_⟩ <;> omega

/-- All in-bounds cells, as a finite set (used only for termination
measures). -/
def boundCells (m : Maze) : Finset Cell :=
  ((Finset.range m.length) ×ˢ (Finset.range (mazeWidth m))).image
    (fun ij => ((ij.1 : ℤ), (ij.2 : ℤ)))

theorem mem_boundCells_of_valid {m : Maze} {x : Cell}
    (h : is_valid_location m x = true) : x ∈ boundCells m := by
  obtain ⟨h₁, h₂, h₃, h₄⟩ := is_valid_location_bounds h
  refine Finset.mem_image.mpr ⟨(x.1.toNat, x.2.toNat), ?_, ?_⟩
  · rw [Finset.mem_product]
    constructor <;> rw [Finset.mem_range] <;> omega
  · ext <;> simp <;> omega

theorem foldl_cons_eq_reverse_append (l acc : List Cell) :
    l.foldl (fun st n => n :: st) acc = l.reverse ++ acc := by
  induction l generalizing acc with
  | nil => simp
  | cons x xs ih => simp [ih]

/-! ### Invariants of the mark-on-expansion breadth-first search

`breadth_first_search` (shared by `mazeSearchNOIMAGE.py` and
`mazeSearch.py`).  `δ` is a shortest-distance function for the fixed maze
and start (see `IsDistFn`). -/

section BfsExp

variable {m : Maze} {a g : Cell} {δ : Cell → ℕ}

/-- Invariant satisfied by every running state of `breadth_first_search`
(that is, every state reached after at least one loop iteration that did not
return). -/
structure BfsInv (m : Maze) (a g : Cell) (δ : Cell → ℕ) (s : SState) : Prop where
  start_mem : a ∈ s.visited
  vis_reach : ∀ x ∈ s.visited, Reachable m a x
  fr_reach : ∀ x ∈ s.frontier, Reachable m a x
  fr_sorted : s.frontier.Pairwise (fun x y => δ x ≤ δ y ∧ δ y ≤ δ x + 1)
  closure : ∀ y ∈ s.visited, ∀ x ∈ get_valid_adjacent m y, x ∉ s.visited → x ∈ s.frontier
  parent_ok : ∀ x p, s.parent x = some p →
    p ∈ s.visited ∧ x ∈ get_valid_adjacent m p ∧ δ p + 1 = δ x
  parent_def : ∀ x, (x ∈ s.visited ∨ x ∈ s.frontier) → x ≠ a → (s.parent x).isSome = true
  card_le : s.visited.card ≤ s.explored
  one_le : 1 ≤ s.explored
  goal_not : g ∉ s.visited
  fr_depth : ∀ x ∈ s.frontier, δ x ≤ s.explored

/-- Frontier cover: any reachable unvisited cell has a frontier cell at most
as deep as it. -/
theorem BfsInv.cover_exp (hδ : IsDistFn m a δ) {s : SState} (hs : BfsInv m a g δ s) :
    ∀ {x : Cell}, Reachable m a x → x ∉ s.visited → ∃ z ∈ s.frontier, δ z ≤ δ x := by
  have H : ∀ (k : ℕ) (x : Cell), δ x ≤ k → Reachable m a x → x ∉ s.visited →
      ∃ z ∈ s.frontier, δ z ≤ δ x := by
    intro k
    induction k using Nat.strong_induction_on with
    | _ k ih =>
      intro x hk hx hxv
      have hxa : x ≠ a := fun h => hxv (h ▸ hs.start_mem)
      have hδx : δ x ≠ 0 := fun h => hxa (hδ.eq_zero hx h)
      have hreach := hδ.reach hx
      obtain ⟨n, hn⟩ : ∃ n, δ x = n + 1 := ⟨δ x - 1, by omega⟩
      rw [hn] at hreach
      obtain ⟨hval, y, hyadj, hy⟩ := reachN_succ_iff.mp hreach
      have hyr : Reachable m a y := ⟨n, hy⟩
      have hyle : δ y ≤ n := hδ.le hy
      have hxadj : x ∈ get_valid_adjacent m y :=
        mem_get_valid_adjacent.mpr ⟨adjacentCells_symm.mp hyadj, hval⟩
      by_cases hyv : y ∈ s.visited
      · exact ⟨x, hs.closure y hyv x hxadj hxv, le_refl _⟩
      · obtain ⟨z, hz, hzle⟩ := ih (δ y) (by omega) y (le_refl _) hyr hyv
        exact ⟨z, hz, by omega⟩
  intro x hx hxv
  exact H (δ x) x (le_refl _) hx hxv

/-- The popped head of the frontier has minimal depth in the frontier. -/
theorem BfsInv.head_min_exp {s : SState} (hs : BfsInv m a g δ s)
    {current : Cell} {rest : List Cell} (hfr : s.frontier = current :: rest) :
    ∀ z ∈ s.frontier, δ current ≤ δ z := by
  intro z hz
  rw [hfr] at hz
  rcases List.mem_cons.mp hz with rfl | hz
  · exact le_refl _
  · have hsor := hs.fr_sorted
    rw [hfr] at hsor
    exact ((List.pairwise_cons.mp hsor).1 z hz).1

/-- Every admitted neighbour of the popped cell lies exactly one layer
deeper: the heart of the breadth-first optimality argument. -/
theorem BfsInv.adm_depth_exp (hδ : IsDistFn m a δ) {s : SState} (hs : BfsInv m a g δ s)
    {current : Cell} {rest : List Cell} (hfr : s.frontier = current :: rest) :
    ∀ x ∈ admissibleExp m (insert current s.visited) current, δ x = δ current + 1 := by
  intro x hx
  obtain ⟨hxadj, hxvis⟩ := mem_admissibleExp.mp hx
  have hxcur : x ≠ current := fun h => hxvis (h ▸ Finset.mem_insert_self current s.visited)
  have hxv : x ∉ s.visited := fun h => hxvis (Finset.mem_insert_of_mem h)
  have hcur_fr : current ∈ s.frontier := by rw [hfr]; exact List.mem_cons_self _ _
  have hcur_reach := hs.fr_reach current hcur_fr
  have hx_reach : Reachable m a x := reachable_of_adj hcur_reach hxadj
  have hupper : δ x ≤ δ current + 1 := hδ.adj_le hcur_reach hxadj
  obtain ⟨z, hzfr, hzle⟩ := hs.cover_exp hδ hx_reach hxv
  have hlower : δ current ≤ δ x := le_trans (hs.head_min_exp hfr z hzfr) hzle
  have hne : δ x ≠ δ current :=
    hδ.adj_ne hx_reach hcur_reach
      (adjacentCells_symm.mp (mem_get_valid_adjacent.mp hxadj).1)
  omega

end BfsExp

section BfsExpStep

variable {m : Maze} {a g : Cell} {δ : Cell → ℕ}

/-- One non-goal iteration of `breadth_first_search` preserves the invariant. -/
theorem BfsInv.step_exp (hδ : IsDistFn m a δ) {s : SState} (hs : BfsInv m a g δ s)
    {current : Cell} {rest : List Cell} (hfr : s.frontier = current :: rest)
    (hcg : current ≠ g) :
    BfsInv m a g δ
      ⟨rest ++ admissibleExp m (insert current s.visited) current,
       insert current s.visited,
       updParent s.parent (admissibleExp m (insert current s.visited) current) current,
       s.explored + 1⟩ := by
  have hkey := hs.adm_depth_exp hδ hfr
  have hcur_fr : current ∈ s.frontier := by rw [hfr]; exact List.mem_cons_self _ _
  have hcur_reach := hs.fr_reach current hcur_fr
  have hcur_depth : δ current ≤ s.explored := hs.fr_depth current hcur_fr
  have hcard := hs.card_le
  have hone := hs.one_le
  have hsor := hs.fr_sorted
  rw [hfr] at hsor
  obtain ⟨hhead, htail⟩ := List.pairwise_cons.mp hsor
  refine ⟨?_, ?_, ?_, ?_, ?_, ?_, ?_, ?_, ?_, ?_, ?_⟩
  all_goals dsimp only
  · exact Finset.mem_insert_of_mem hs.start_mem
  · intro x hx
    rcases Finset.mem_insert.mp hx with rfl | hx
    · exact hcur_reach
    · exact hs.vis_reach x hx
  · intro x hx
    rcases List.mem_append.mp hx with hx | hx
    · exact hs.fr_reach x (by rw [hfr]; exact List.mem_cons_of_mem _ hx)
    · exact reachable_of_adj hcur_reach (mem_admissibleExp.mp hx).1
  · refine List.pairwise_append.mpr ⟨htail, ?_, ?_⟩
    · refine List.pairwise_of_forall_mem_list ?_
      intro x hx y hy
      rw [hkey x hx, hkey y hy]
      omega
    · intro y hy x hx
      have h1 := hhead y hy
      rw [hkey x hx]
      omega
  · intro y hy x hxadj hxvis
    rcases Finset.mem_insert.mp hy with rfl | hy
    · exact List.mem_append.mpr (Or.inr (mem_admissibleExp.mpr ⟨hxadj, hxvis⟩))
    · have hx' : x ∉ s.visited := fun h => hxvis (Finset.mem_insert_of_mem h)
      have hxf := hs.closure y hy x hxadj hx'
      rw [hfr] at hxf
      rcases List.mem_cons.mp hxf with rfl | hx
      · exact absurd (Finset.mem_insert_self x s.visited) hxvis
      · exact List.mem_append.mpr (Or.inl hx)
  · intro x p hp
    rcases updParent_eq_some hp with ⟨hxadm, rfl⟩ | ⟨hxadm, hp'⟩
    · exact ⟨Finset.mem_insert_self _ _, (mem_admissibleExp.mp hxadm).1, (hkey x hxadm).symm⟩
    · obtain ⟨h1, h2, h3⟩ := hs.parent_ok x p hp'
      exact ⟨Finset.mem_insert_of_mem h1, h2, h3⟩
  · intro x hx hxa
    rcases hx with hx | hx
    · rcases Finset.mem_insert.mp hx with rfl | hx
      · exact updParent_isSome (Or.inl (hs.parent_def x (Or.inr hcur_fr) hxa))
      · exact updParent_isSome (Or.inl (hs.parent_def x (Or.inl hx) hxa))
    · rcases List.mem_append.mp hx with hx | hx
      · exact updParent_isSome
          (Or.inl (hs.parent_def x
            (Or.inr (by rw [hfr]; exact List.mem_cons_of_mem _ hx)) hxa))
      · exact updParent_isSome (Or.inr hx)
  · have h1 : (insert current s.visited).card ≤ s.visited.card + 1 :=
      Finset.card_insert_le _ _
    omega
  · omega
  · intro hg
    rcases Finset.mem_insert.mp hg with hg | hg
    · exact hcg hg.symm
    · exact hs.goal_not hg
  · intro x hx
    rcases List.mem_append.mp hx with hx | hx
    · have := hs.fr_depth x (by rw [hfr]; exact List.mem_cons_of_mem _ hx)
      omega
    · rw [hkey x hx]
      omega

/-- The invariant holds after the first iteration from the initial state
(when `start ≠ goal`). -/
theorem bfsInv_init (hδ : IsDistFn m a δ) (hag : a ≠ g) :
    BfsInv m a g δ
      ⟨[] ++ admissibleExp m (insert a (∅ : Finset Cell)) a,
       insert a (∅ : Finset Cell),
       updParent (fun _ => none) (admissibleExp m (insert a (∅ : Finset Cell)) a) a,
       0 + 1⟩ := by
  have hkey : ∀ x ∈ admissibleExp m (insert a (∅ : Finset Cell)) a, δ x = 1 := by
    intro x hx
    obtain ⟨hxadj, hxvis⟩ := mem_admissibleExp.mp hx
    have hxa : x ≠ a := fun h => hxvis (h ▸ Finset.mem_insert_self a ∅)
    have hx_reach : Reachable m a x := reachable_of_adj (reachable_start m a) hxadj
    have h1 : δ x ≤ 1 := by
      have := hδ.adj_le (reachable_start m a) hxadj
      rw [hδ.start] at this
      omega
    have h0 : δ x ≠ 0 := fun h => hxa (hδ.eq_zero hx_reach h)
    omega
  refine ⟨?_, ?_, ?_, ?_, ?_, ?_, ?_, ?_, ?_, ?_, ?_⟩
  all_goals dsimp only
  · exact Finset.mem_insert_self a ∅
  · intro x hx
    rcases Finset.mem_insert.mp hx with h | hx
    · rw [h]; exact reachable_start m a
    · exact absurd hx (Finset.not_mem_empty x)
  · intro x hx
    rw [List.nil_append] at hx
    exact reachable_of_adj (reachable_start m a) (mem_admissibleExp.mp hx).1
  · rw [List.nil_append]
    refine List.pairwise_of_forall_mem_list ?_
    intro x hx y hy
    rw [hkey x hx, hkey y hy]
    omega
  · intro y hy x hxadj hxvis
    rcases Finset.mem_insert.mp hy with rfl | hy
    · exact List.mem_append.mpr (Or.inr (mem_admissibleExp.mpr ⟨hxadj, hxvis⟩))
    · exact absurd hy (Finset.not_mem_empty y)
  · intro x p hp
    rcases updParent_eq_some hp with ⟨hxadm, rfl⟩ | ⟨-, hp'⟩
    · refine ⟨Finset.mem_insert_self _ _, (mem_admissibleExp.mp hxadm).1, ?_⟩
      rw [hδ.start, hkey x hxadm]
    · exact absurd hp' (by simp)
  · intro x hx hxa
    rcases hx with hx | hx
    · rcases Finset.mem_insert.mp hx with rfl | hx
      · exact absurd rfl hxa
      · exact absurd hx (Finset.not_mem_empty x)
    · rw [List.nil_append] at hx
      exact updParent_isSome (Or.inr hx)
  · simp
  · omega
  · intro hg
    rcases Finset.mem_insert.mp hg with hg | hg
    · exact hag hg.symm
    · exact absurd hg (Finset.not_mem_empty g)
  · intro x hx
    rw [List.nil_append] at hx
    rw [hkey x hx]

end BfsExpStep

section BfsExpRun

variable {m : Maze} {a g : Cell} {δ : Cell → ℕ}

/-- Everything `breadth_first_search` can return from an invariant state:
when the frontier is exhausted, the search reports no path and has visited
exactly the reachable cells (so the goal is unreachable); when it finds the
goal, the returned path is a valid start-to-goal path of exactly the
shortest length `δ g + 1`, and never longer than the expansion count. -/
theorem bfs_run_spec (hδ : IsDistFn m a δ) :
    ∀ (fuel : ℕ) (s : SState), BfsInv m a g δ s →
      ∀ res, breadth_first_search m a g fuel s = some res →
        1 ≤ res.explored ∧
        (res.path = none →
          (∀ x, x ∈ res.visitedSet ↔ Reachable m a x) ∧ ¬Reachable m a g) ∧
        (∀ p, res.path = some p → p ≠ [] ∧ p.head? = some a ∧ p.getLast? = some g ∧
          p.Chain' (StepOK m) ∧ p.length = δ g + 1 ∧ Reachable m a g ∧
          p.length ≤ res.explored) := by
  intro fuel
  induction fuel with
  | zero => intro s hs res hres; simp [breadth_first_search] at hres
  | succ fuel ih =>
    intro s hs res hres
    rcases hfr : s.frontier with _ | ⟨current, rest⟩
    · simp only [breadth_first_search, hfr] at hres
      obtain rfl := Option.some_injective _ hres
      have hcl : ∀ (n : ℕ) (x : Cell), reachN m a n x = true → x ∈ s.visited := by
        intro n
        induction n with
        | zero =>
          intro x hx
          rw [reachN_zero_iff.mp hx]
          exact hs.start_mem
        | succ n ihn =>
          intro x hx
          obtain ⟨hval, y, hyadj, hy⟩ := reachN_succ_iff.mp hx
          have hyv := ihn y hy
          have hxadj : x ∈ get_valid_adjacent m y :=
            mem_get_valid_adjacent.mpr ⟨adjacentCells_symm.mp hyadj, hval⟩
          by_contra hxv
          have hmem := hs.closure y hyv x hxadj hxv
          rw [hfr] at hmem
          exact absurd hmem (List.not_mem_nil x)
      refine ⟨hs.one_le, ?_, ?_⟩
      · exact fun _ =>
          ⟨fun x => ⟨fun hx => hs.vis_reach x hx, fun hr => hcl hr.choose x hr.choose_spec⟩,
           fun hr => hs.goal_not (hcl hr.choose g hr.choose_spec)⟩
      · intro p hp
        exact absurd hp (by simp)
    · by_cases hcg : current = g
      · subst hcg
        simp only [breadth_first_search, hfr, if_pos] at hres
        have hcur_fr : current ∈ s.frontier := by
          rw [hfr]; exact List.mem_cons_self _ _
        have hchain : ∀ x ∈ insert current s.visited, ∀ p, s.parent x = some p →
            p ∈ insert current s.visited ∧ x ∈ get_valid_adjacent m p ∧ δ p < δ x := by
          intro x _ p hp
          obtain ⟨h1, h2, h3⟩ := hs.parent_ok x p hp
          exact ⟨Finset.mem_insert_of_mem h1, h2, by omega⟩
        have hdef : ∀ x ∈ insert current s.visited, x ≠ a → (s.parent x).isSome = true := by
          intro x hx hxa
          rcases Finset.mem_insert.mp hx with h | hx
          · rw [h] at hxa ⊢
            exact hs.parent_def current (Or.inr hcur_fr) hxa
          · exact hs.parent_def x (Or.inl hx) hxa
        have hdep : δ current ≤ s.explored := hs.fr_depth current hcur_fr
        obtain ⟨l, hrev, hlne, hlhead, hllast, hlchain, hllen, -, -, -⟩ :=
          reveal_path_spec m a s.parent (insert current s.visited) δ hchain hdef
            (δ current) current (le_refl _) (Finset.mem_insert_self _ _)
            (s.explored + 1) (by omega)
        rw [hrev] at hres
        simp only [Option.map_some'] at hres
        obtain rfl := Option.some_injective _ hres
        have hreachg : Reachable m a current := hs.fr_reach current hcur_fr
        have hr := chain'_reachN m a l current hlchain hlhead hllast
        have hge : δ current ≤ l.length - 1 := hδ.le hr
        have hlpos : 1 ≤ l.length := List.length_pos.mpr hlne
        have hlen_exact : l.length = δ current + 1 := by omega
        refine ⟨by dsimp only; omega, ?_, ?_⟩
        · intro hp
          exact absurd hp (by simp)
        · intro p hp
          simp only at hp
          obtain rfl := Option.some_injective _ hp
          exact ⟨hlne, hlhead, hllast, hlchain, hlen_exact, hreachg, by simp; omega⟩
      · simp only [breadth_first_search, hfr, if_neg hcg] at hres
        exact ih _ (hs.step_exp hδ hfr hcg) res hres

end BfsExpRun

section BfsExpTermination

variable {m : Maze} {a g : Cell} {δ : Cell → ℕ}

/-- From any invariant state, `breadth_first_search` reaches a returned
result with enough fuel (termination).  Lexicographic measure: number of
unvisited in-bounds cells, then number of frontier entries whose cell is
already visited. -/
theorem bfs_exp_terminates (hδ : IsDistFn m a δ) :
    ∀ (n₁ : ℕ) (s : SState), ((boundCells m ∪ {a}) \ s.visited).card ≤ n₁ →
      BfsInv m a g δ s →
      ∃ fuel, (breadth_first_search m a g fuel s).isSome = true := by
  intro n₁
  induction n₁ using Nat.strong_induction_on with
  | _ n₁ ih₁ =>
    suffices H : ∀ (n₂ : ℕ) (s : SState),
        ((boundCells m ∪ {a}) \ s.visited).card ≤ n₁ →
        (s.frontier.filter (fun x => decide (x ∈ s.visited))).length ≤ n₂ →
        BfsInv m a g δ s →
        ∃ fuel, (breadth_first_search m a g fuel s).isSome = true by
      intro s h1 hs
      exact H _ s h1 (le_refl _) hs
    intro n₂
    induction n₂ using Nat.strong_induction_on with
    | _ n₂ ih₂ =>
      intro s h1 h2 hs
      rcases hfr : s.frontier with _ | ⟨current, rest⟩
      · exact ⟨1, by simp [breadth_first_search, hfr]⟩
      · by_cases hcg : current = g
        · subst hcg
          have hcur_fr : current ∈ s.frontier := by
            rw [hfr]; exact List.mem_cons_self _ _
          have hchain : ∀ x ∈ insert current s.visited, ∀ p, s.parent x = some p →
              p ∈ insert current s.visited ∧ x ∈ get_valid_adjacent m p ∧ δ p < δ x := by
            intro x _ p hp
            obtain ⟨hp1, hp2, hp3⟩ := hs.parent_ok x p hp
            exact ⟨Finset.mem_insert_of_mem hp1, hp2, by omega⟩
          have hdef : ∀ x ∈ insert current s.visited, x ≠ a →
              (s.parent x).isSome = true := by
            intro x hx hxa
            rcases Finset.mem_insert.mp hx with h | hx
            · rw [h] at hxa ⊢
              exact hs.parent_def current (Or.inr hcur_fr) hxa
            · exact hs.parent_def x (Or.inl hx) hxa
          have hdep : δ current ≤ s.explored := hs.fr_depth current hcur_fr
          obtain ⟨l, hrev, -, -, -, -, -, -, -, -⟩ :=
            reveal_path_spec m a s.parent (insert current s.visited) δ hchain hdef
              (δ current) current (le_refl _) (Finset.mem_insert_self _ _)
              (s.explored + 1) (by omega)
          refine ⟨1, ?_⟩
          simp [breadth_first_search, hfr, hrev]
        · have hs' := hs.step_exp hδ hfr hcg
          by_cases hcv : current ∈ s.visited
          · have hvis_eq : insert current s.visited = s.visited :=
              Finset.insert_eq_self.mpr hcv
            have hadm_no : ∀ x ∈ admissibleExp m (insert current s.visited) current,
                x ∉ insert current s.visited :=
              fun x hx => (mem_admissibleExp.mp hx).2
            have hfil2 : ((rest ++ admissibleExp m (insert current s.visited) current).filter
                (fun x => decide (x ∈ insert current s.visited))).length <
                ((s.frontier.filter (fun x => decide (x ∈ s.visited)))).length := by
              rw [hfr, List.filter_cons, List.filter_append]
              have hd : decide (current ∈ s.visited) = true := decide_eq_true_iff.mpr hcv
              rw [hd]
              have hnil : (admissibleExp m (insert current s.visited) current).filter
                  (fun x => decide (x ∈ insert current s.visited)) = [] := by
                rw [List.filter_eq_nil_iff]
                intro x hx
                simpa using hadm_no x hx
              rw [hnil, hvis_eq]
              simp
            obtain ⟨fuel, hf⟩ := ih₂
              (((rest ++ admissibleExp m (insert current s.visited) current).filter
                (fun x => decide (x ∈ insert current s.visited))).length)
              (by omega) _ (by dsimp only; rw [hvis_eq]; exact h1) (le_refl _) hs'
            refine ⟨fuel + 1, ?_⟩
            simp only [breadth_first_search, hfr]
            rw [if_neg hcg]
            exact hf
          · have hcur_reach := hs.fr_reach current (by rw [hfr]; exact List.mem_cons_self _ _)
            have hcurB : current ∈ boundCells m ∪ {a} := by
              rcases reachable_valid_or_start hcur_reach with h | h
              · exact Finset.mem_union_left _ (mem_boundCells_of_valid h)
              · exact Finset.mem_union_right _ (by simp [h])
            have hsub : (boundCells m ∪ {a}) \ insert current s.visited ⊂
                (boundCells m ∪ {a}) \ s.visited := by
              refine (Finset.ssubset_iff_of_subset
                (Finset.sdiff_subset_sdiff (le_refl _) (Finset.subset_insert _ _))).mpr ?_
              exact ⟨current, Finset.mem_sdiff.mpr ⟨hcurB, hcv⟩,
                fun h => (Finset.mem_sdiff.mp h).2 (Finset.mem_insert_self _ _)⟩
            have hlt := Finset.card_lt_card hsub
            obtain ⟨fuel, hf⟩ := ih₁
              (((boundCells m ∪ {a}) \ insert current s.visited).card)
              (by omega) _ (le_refl _) hs'
            refine ⟨fuel + 1, ?_⟩
            simp only [breadth_first_search, hfr]
            rw [if_neg hcg]
            exact hf

/-- Conclusions of a full `breadth_first_search` run from the initial state. -/
theorem bfs_init_spec (hδ : IsDistFn m a δ) :
    ∀ fuel res, breadth_first_search m a g fuel (searchInit a) = some res →
      1 ≤ res.explored ∧
      (res.path = none →
        (∀ x, x ∈ res.visitedSet ↔ Reachable m a x) ∧ ¬Reachable m a g) ∧
      (∀ p, res.path = some p → p ≠ [] ∧ p.head? = some a ∧ p.getLast? = some g ∧
        p.Chain' (StepOK m) ∧ p.length = δ g + 1 ∧ Reachable m a g ∧
        p.length ≤ res.explored) := by
  intro fuel res hres
  cases fuel with
  | zero => simp [breadth_first_search] at hres
  | succ fuel =>
    by_cases hag : a = g
    · subst hag
      simp only [breadth_first_search, searchInit, if_pos, reveal_path, if_true,
        Option.map_some'] at hres
      obtain rfl := Option.some_injective _ hres
      refine ⟨by dsimp only; omega, fun hp => absurd hp (by simp), fun p hp => ?_⟩
      simp only at hp
      obtain rfl := Option.some_injective _ hp
      refine ⟨by simp, by simp, by simp, by simp, by simp [hδ.start], reachable_start m a,
        by simp⟩
    · simp only [breadth_first_search, searchInit] at hres
      rw [if_neg hag] at hres
      exact bfs_run_spec hδ fuel _ (bfsInv_init hδ hag) res hres

/-- `breadth_first_search` terminates from the initial state. -/
theorem bfs_exp_init_terminates (hδ : IsDistFn m a δ) :
    ∃ fuel, (breadth_first_search m a g fuel (searchInit a)).isSome = true := by
  by_cases hag : a = g
  · refine ⟨1, ?_⟩
    subst hag
    simp [breadth_first_search, searchInit, reveal_path]
  · obtain ⟨fuel, hf⟩ := bfs_exp_terminates hδ _ _ (le_refl _) (bfsInv_init hδ hag)
    refine ⟨fuel + 1, ?_⟩
    simp only [breadth_first_search, searchInit]
    rw [if_neg hag]
    exact hf

end BfsExpTermination

/-! ### Invariants of the mark-on-discovery breadth-first search
(`bfs` of `DepthFirst.py`) -/

section BfsDisc

variable {m : Maze} {a g : Cell} {δ : Cell → ℕ}

/-- Neighbours admitted (and immediately marked) by `bfs` of `DepthFirst.py`. -/
theorem mem_admD {m : Maze} {vis : Finset Cell} {current x : Cell} :
    x ∈ (getValidNeighbors m current).filter (fun n => decide (n ∉ vis)) ↔
      x ∈ get_valid_adjacent m current ∧ x ∉ vis := by
  rw [get_valid_adjacent_eq_getValidNeighbors]
  simp [List.mem_filter]

theorem admD_nodup (m : Maze) (vis : Finset Cell) (current : Cell) :
    ((getValidNeighbors m current).filter (fun n => decide (n ∉ vis))).Nodup := by
  apply List.Nodup.filter
  apply List.Nodup.filter
  exact adjacentCells_nodup current

/-- Invariant of the running states of `bfs` of `DepthFirst.py`. -/
structure BfsDiscInv (m : Maze) (a g : Cell) (δ : Cell → ℕ) (s : SState) : Prop where
  start_mem : a ∈ s.visited
  vis_reach : ∀ x ∈ s.visited, Reachable m a x
  fr_sub : ∀ x ∈ s.frontier, x ∈ s.visited
  fr_sorted : s.frontier.Pairwise (fun x y => δ x ≤ δ y ∧ δ y ≤ δ x + 1)
  fr_nodup : s.frontier.Nodup
  closure : ∀ y ∈ s.visited, y ∉ s.frontier → ∀ x ∈ get_valid_adjacent m y, x ∈ s.visited
  parent_ok : ∀ x p, s.parent x = some p →
    p ∈ s.visited ∧ x ∈ get_valid_adjacent m p ∧ δ p + 1 = δ x
  parent_def : ∀ x ∈ s.visited, x ≠ a → (s.parent x).isSome = true
  one_le : 1 ≤ s.explored
  goal_fr : g ∈ s.visited → g ∈ s.frontier
  fr_depth : ∀ x ∈ s.frontier, δ x ≤ s.explored

theorem BfsDiscInv.cover_disc (hδ : IsDistFn m a δ) {s : SState} (hs : BfsDiscInv m a g δ s) :
    ∀ {x : Cell}, Reachable m a x → x ∉ s.visited → ∃ z ∈ s.frontier, δ z ≤ δ x := by
  have H : ∀ (k : ℕ) (x : Cell), δ x ≤ k → Reachable m a x → x ∉ s.visited →
      ∃ z ∈ s.frontier, δ z ≤ δ x := by
    intro k
    induction k using Nat.strong_induction_on with
    | _ k ih =>
      intro x hk hx hxv
      have hxa : x ≠ a := fun h => hxv (h ▸ hs.start_mem)
      have hδx : δ x ≠ 0 := fun h => hxa (hδ.eq_zero hx h)
      have hreach := hδ.reach hx
      obtain ⟨n, hn⟩ : ∃ n, δ x = n + 1 := ⟨δ x - 1, by omega⟩
      rw [hn] at hreach
      obtain ⟨hval, y, hyadj, hy⟩ := reachN_succ_iff.mp hreach
      have hyr : Reachable m a y := ⟨n, hy⟩
      have hyle : δ y ≤ n := hδ.le hy
      have hxadj : x ∈ get_valid_adjacent m y :=
        mem_get_valid_adjacent.mpr ⟨adjacentCells_symm.mp hyadj, hval⟩
      by_cases hyv : y ∈ s.visited
      · by_cases hyf : y ∈ s.frontier
        · exact ⟨y, hyf, by omega⟩
        · exact absurd (hs.closure y hyv hyf x hxadj) hxv
      · obtain ⟨z, hz, hzle⟩ := ih (δ y) (by omega) y (le_refl _) hyr hyv
        exact ⟨z, hz, by omega⟩
  intro x hx hxv
  exact H (δ x) x (le_refl _) hx hxv

theorem BfsDiscInv.head_min_disc {s : SState} (hs : BfsDiscInv m a g δ s)
    {current : Cell} {rest : List Cell} (hfr : s.frontier = current :: rest) :
    ∀ z ∈ s.frontier, δ current ≤ δ z := by
  intro z hz
  rw [hfr] at hz
  rcases List.mem_cons.mp hz with rfl | hz
  · exact le_refl _
  · have hsor := hs.fr_sorted
    rw [hfr] at hsor
    exact ((List.pairwise_cons.mp hsor).1 z hz).1

theorem BfsDiscInv.adm_depth_disc (hδ : IsDistFn m a δ) {s : SState}
    (hs : BfsDiscInv m a g δ s)
    {current : Cell} {rest : List Cell} (hfr : s.frontier = current :: rest) :
    ∀ x ∈ (getValidNeighbors m current).filter
        (fun n => decide (n ∉ insert current s.visited)),
      δ x = δ current + 1 := by
  intro x hx
  obtain ⟨hxadj, hxvis⟩ := mem_admD.mp hx
  have hxv : x ∉ s.visited := fun h => hxvis (Finset.mem_insert_of_mem h)
  have hcur_fr : current ∈ s.frontier := by rw [hfr]; exact List.mem_cons_self _ _
  have hcur_reach := hs.vis_reach current (hs.fr_sub current hcur_fr)
  have hx_reach : Reachable m a x := reachable_of_adj hcur_reach hxadj
  have hupper : δ x ≤ δ current + 1 := hδ.adj_le hcur_reach hxadj
  obtain ⟨z, hzfr, hzle⟩ := hs.cover_disc hδ hx_reach hxv
  have hlower : δ current ≤ δ x := le_trans (hs.head_min_disc hfr z hzfr) hzle
  have hne : δ x ≠ δ current :=
    hδ.adj_ne hx_reach hcur_reach
      (adjacentCells_symm.mp (mem_get_valid_adjacent.mp hxadj).1)
  omega

end BfsDisc

section BfsDiscStep

variable {m : Maze} {a g : Cell} {δ : Cell → ℕ}

/-- One non-goal iteration of `bfs` (DepthFirst.py) preserves the invariant. -/
theorem BfsDiscInv.step_disc (hδ : IsDistFn m a δ) {s : SState} (hs : BfsDiscInv m a g δ s)
    {current : Cell} {rest : List Cell} (hfr : s.frontier = current :: rest)
    (hcg : current ≠ g) :
    BfsDiscInv m a g δ
      ⟨rest ++ (getValidNeighbors m current).filter
          (fun n => decide (n ∉ insert current s.visited)),
       insert current s.visited ∪
         ((getValidNeighbors m current).filter
           (fun n => decide (n ∉ insert current s.visited))).toFinset,
       updParent s.parent
         ((getValidNeighbors m current).filter
           (fun n => decide (n ∉ insert current s.visited))) current,
       s.explored + 1⟩ := by
  have hkey := hs.adm_depth_disc hδ hfr
  have hcur_fr : current ∈ s.frontier := by rw [hfr]; exact List.mem_cons_self _ _
  have hcur_vis : current ∈ s.visited := hs.fr_sub current hcur_fr
  have hcur_reach := hs.vis_reach current hcur_vis
  have hcur_depth : δ current ≤ s.explored := hs.fr_depth current hcur_fr
  have hone := hs.one_le
  have hsor := hs.fr_sorted
  rw [hfr] at hsor
  obtain ⟨hhead, htail⟩ := List.pairwise_cons.mp hsor
  have hnod := hs.fr_nodup
  rw [hfr] at hnod
  obtain ⟨hcur_rest, hrest_nodup⟩ := List.nodup_cons.mp hnod
  have hmemv : ∀ x, x ∈ insert current s.visited ∪
      ((getValidNeighbors m current).filter
        (fun n => decide (n ∉ insert current s.visited))).toFinset ↔
      (x = current ∨ x ∈ s.visited) ∨
        (x ∈ get_valid_adjacent m current ∧ x ∉ insert current s.visited) := by
    intro x
    rw [Finset.mem_union, Finset.mem_insert, List.mem_toFinset, mem_admD]
    simp [Finset.mem_insert]
  refine ⟨?_, ?_, ?_, ?_, ?_, ?_, ?_, ?_, ?_, ?_, ?_⟩
  all_goals dsimp only
  · exact Finset.mem_union_left _ (Finset.mem_insert_of_mem hs.start_mem)
  · intro x hx
    rcases (hmemv x).mp hx with (h | hx) | ⟨hxadj, -⟩
    · rw [h]; exact hcur_reach
    · exact hs.vis_reach x hx
    · exact reachable_of_adj hcur_reach hxadj
  · intro x hx
    rcases List.mem_append.mp hx with hx | hx
    · exact Finset.mem_union_left _
        (Finset.mem_insert_of_mem (hs.fr_sub x (by rw [hfr]; exact List.mem_cons_of_mem _ hx)))
    · exact Finset.mem_union_right _ (List.mem_toFinset.mpr hx)
  · refine List.pairwise_append.mpr ⟨htail, ?_, ?_⟩
    · refine List.pairwise_of_forall_mem_list ?_
      intro x hx y hy
      rw [hkey x hx, hkey y hy]
      omega
    · intro y hy x hx
      have h1 := hhead y hy
      rw [hkey x hx]
      omega
  · refine List.nodup_append.mpr ⟨hrest_nodup, admD_nodup m _ current, ?_⟩
    intro x hx hx'
    have hxvis := (mem_admD.mp hx').2
    exact hxvis (Finset.mem_insert_of_mem
      (hs.fr_sub x (by rw [hfr]; exact List.mem_cons_of_mem _ hx)))
  · intro y hy hyf x hxadj
    rcases (hmemv y).mp hy with (h | hy) | ⟨hyadj, hyvis⟩
    · subst h
      by_cases hxv : x ∈ insert y s.visited
      · exact (hmemv x).mpr (Or.inl (by
          rcases Finset.mem_insert.mp hxv with h | h
          · exact Or.inl h
          · exact Or.inr h))
      · exact (hmemv x).mpr (Or.inr ⟨hxadj, hxv⟩)
    · by_cases hyf' : y ∈ s.frontier
      · rw [hfr] at hyf'
        rcases List.mem_cons.mp hyf' with h | h
        · subst h
          by_cases hxv : x ∈ insert y s.visited
          · exact (hmemv x).mpr (Or.inl (by
              rcases Finset.mem_insert.mp hxv with h | h
              · exact Or.inl h
              · exact Or.inr h))
          · exact (hmemv x).mpr (Or.inr ⟨hxadj, hxv⟩)
        · exact absurd (List.mem_append.mpr (Or.inl h)) hyf
      · exact (hmemv x).mpr (Or.inl (Or.inr (hs.closure y hy hyf' x hxadj)))
    · exact absurd (List.mem_append.mpr (Or.inr (mem_admD.mpr
        ⟨hyadj, hyvis⟩))) hyf
  · intro x p hp
    rcases updParent_eq_some hp with ⟨hxadm, rfl⟩ | ⟨-, hp'⟩
    · exact ⟨Finset.mem_union_left _ (Finset.mem_insert_self _ _),
        (mem_admD.mp hxadm).1, (hkey x hxadm).symm⟩
    · obtain ⟨h1, h2, h3⟩ := hs.parent_ok x p hp'
      exact ⟨Finset.mem_union_left _ (Finset.mem_insert_of_mem h1), h2, h3⟩
  · intro x hx hxa
    rcases (hmemv x).mp hx with (h | hx) | hxadm
    · rw [h] at hxa ⊢
      exact updParent_isSome (Or.inl (hs.parent_def current hcur_vis hxa))
    · exact updParent_isSome (Or.inl (hs.parent_def x hx hxa))
    · exact updParent_isSome (Or.inr (mem_admD.mpr hxadm))
  · omega
  · intro hg
    rcases (hmemv g).mp hg with (h | hg) | hgadm
    · exact absurd h.symm hcg
    · have := hs.goal_fr hg
      rw [hfr] at this
      rcases List.mem_cons.mp this with h | h
      · exact absurd h.symm hcg
      · exact List.mem_append.mpr (Or.inl h)
    · exact List.mem_append.mpr (Or.inr (mem_admD.mpr hgadm))
  · intro x hx
    rcases List.mem_append.mp hx with hx | hx
    · have := hs.fr_depth x (by rw [hfr]; exact List.mem_cons_of_mem _ hx)
      omega
    · rw [hkey x hx]
      omega

/-- The discovery-BFS invariant holds after the first iteration (start ≠ goal). -/
theorem bfsDiscInv_init (hδ : IsDistFn m a δ) (hag : a ≠ g) :
    BfsDiscInv m a g δ
      ⟨[] ++ (getValidNeighbors m a).filter
          (fun n => decide (n ∉ insert a (∅ : Finset Cell))),
       insert a (∅ : Finset Cell) ∪
         ((getValidNeighbors m a).filter
           (fun n => decide (n ∉ insert a (∅ : Finset Cell)))).toFinset,
       updParent (fun _ => none)
         ((getValidNeighbors m a).filter
           (fun n => decide (n ∉ insert a (∅ : Finset Cell)))) a,
       0 + 1⟩ := by
  have hkey : ∀ x ∈ (getValidNeighbors m a).filter
      (fun n => decide (n ∉ insert a (∅ : Finset Cell))), δ x = 1 := by
    intro x hx
    obtain ⟨hxadj, hxvis⟩ := mem_admD.mp hx
    have hxa : x ≠ a := fun h => hxvis (h ▸ Finset.mem_insert_self a ∅)
    have hx_reach : Reachable m a x := reachable_of_adj (reachable_start m a) hxadj
    have h1 : δ x ≤ 1 := by
      have := hδ.adj_le (reachable_start m a) hxadj
      rw [hδ.start] at this
      omega
    have h0 : δ x ≠ 0 := fun h => hxa (hδ.eq_zero hx_reach h)
    omega
  have hmemv : ∀ x, x ∈ insert a (∅ : Finset Cell) ∪
      ((getValidNeighbors m a).filter
        (fun n => decide (n ∉ insert a (∅ : Finset Cell)))).toFinset ↔
      x = a ∨ (x ∈ get_valid_adjacent m a ∧ x ∉ insert a (∅ : Finset Cell)) := by
    intro x
    rw [Finset.mem_union, Finset.mem_insert, List.mem_toFinset, mem_admD]
    simp
  refine ⟨?_, ?_, ?_, ?_, ?_, ?_, ?_, ?_, ?_, ?_, ?_⟩
  all_goals dsimp only
  · exact Finset.mem_union_left _ (Finset.mem_insert_self a ∅)
  · intro x hx
    rcases (hmemv x).mp hx with h | ⟨hxadj, -⟩
    · rw [h]; exact reachable_start m a
    · exact reachable_of_adj (reachable_start m a) hxadj
  · intro x hx
    rw [List.nil_append] at hx
    exact Finset.mem_union_right _ (List.mem_toFinset.mpr hx)
  · rw [List.nil_append]
    refine List.pairwise_of_forall_mem_list ?_
    intro x hx y hy
    rw [hkey x hx, hkey y hy]
    omega
  · rw [List.nil_append]
    exact admD_nodup m _ a
  · intro y hy hyf x hxadj
    rcases (hmemv y).mp hy with h | hyadm
    · subst h
      by_cases hxv : x ∈ insert y (∅ : Finset Cell)
      · exact (hmemv x).mpr (Or.inl (by
          rcases Finset.mem_insert.mp hxv with h | h
          · exact h
          · exact absurd h (Finset.not_mem_empty x)))
      · exact (hmemv x).mpr (Or.inr ⟨hxadj, hxv⟩)
    · exact absurd (by rw [List.nil_append]; exact mem_admD.mpr hyadm) hyf
  · intro x p hp
    rcases updParent_eq_some hp with ⟨hxadm, rfl⟩ | ⟨-, hp'⟩
    · refine ⟨Finset.mem_union_left _ (Finset.mem_insert_self _ _),
        (mem_admD.mp hxadm).1, ?_⟩
      rw [hδ.start, hkey x hxadm]
    · exact absurd hp' (by simp)
  · intro x hx hxa
    rcases (hmemv x).mp hx with h | hxadm
    · exact absurd h hxa
    · exact updParent_isSome (Or.inr (mem_admD.mpr hxadm))
  · omega
  · intro hg
    rcases (hmemv g).mp hg with h | hgadm
    · exact absurd h.symm hag
    · rw [List.nil_append]
      exact mem_admD.mpr hgadm
  · intro x hx
    rw [List.nil_append] at hx
    rw [hkey x hx]

end BfsDiscStep

section BfsDiscRun

variable {m : Maze} {a g : Cell} {δ : Cell → ℕ}

/-- Everything `bfs` of `DepthFirst.py` can return from an invariant state. -/
theorem bfs_disc_run_spec (hδ : IsDistFn m a δ) :
    ∀ (fuel : ℕ) (s : SState), BfsDiscInv m a g δ s →
      ∀ res, bfsDiscovery m a g fuel s = some res →
        1 ≤ res.explored ∧
        (res.path = none → ¬Reachable m a g) ∧
        (∀ p, res.path = some p → p ≠ [] ∧ p.head? = some a ∧ p.getLast? = some g ∧
          p.Chain' (StepOK m) ∧ p.length = δ g + 1 ∧ Reachable m a g ∧
          p.length ≤ res.explored) := by
  intro fuel
  induction fuel with
  | zero => intro s hs res hres; simp [bfsDiscovery] at hres
  | succ fuel ih =>
    intro s hs res hres
    rcases hfr : s.frontier with _ | ⟨current, rest⟩
    · simp only [bfsDiscovery, hfr] at hres
      obtain rfl := Option.some_injective _ hres
      have hcl : ∀ (n : ℕ) (x : Cell), reachN m a n x = true → x ∈ s.visited := by
        intro n
        induction n with
        | zero =>
          intro x hx
          rw [reachN_zero_iff.mp hx]
          exact hs.start_mem
        | succ n ihn =>
          intro x hx
          obtain ⟨hval, y, hyadj, hy⟩ := reachN_succ_iff.mp hx
          have hyv := ihn y hy
          have hxadj : x ∈ get_valid_adjacent m y :=
            mem_get_valid_adjacent.mpr ⟨adjacentCells_symm.mp hyadj, hval⟩
          have hynf : y ∉ s.frontier := by rw [hfr]; exact List.not_mem_nil y
          exact hs.closure y hyv hynf x hxadj
      refine ⟨hs.one_le, ?_, ?_⟩
      · intro _ hr
        have hg := hcl hr.choose g hr.choose_spec
        have := hs.goal_fr hg
        rw [hfr] at this
        exact absurd this (List.not_mem_nil g)
      · intro p hp
        exact absurd hp (by simp)
    · by_cases hcg : current = g
      · subst hcg
        simp only [bfsDiscovery, hfr, if_pos] at hres
        have hcur_fr : current ∈ s.frontier := by
          rw [hfr]; exact List.mem_cons_self _ _
        have hcur_vis : current ∈ s.visited := hs.fr_sub current hcur_fr
        have hchain : ∀ x ∈ s.visited, ∀ p, s.parent x = some p →
            p ∈ s.visited ∧ x ∈ get_valid_adjacent m p ∧ δ p < δ x := by
          intro x _ p hp
          obtain ⟨h1, h2, h3⟩ := hs.parent_ok x p hp
          exact ⟨h1, h2, by omega⟩
        have hdep : δ current ≤ s.explored := hs.fr_depth current hcur_fr
        obtain ⟨l, hrev, hlne, hlhead, hllast, hlchain, hllen, -, -, -⟩ :=
          reveal_path_spec m a s.parent s.visited δ hchain hs.parent_def
            (δ current) current (le_refl _) hcur_vis
            (s.explored + 1) (by omega)
        rw [hrev] at hres
        simp only [Option.map_some'] at hres
        obtain rfl := Option.some_injective _ hres
        have hreachg : Reachable m a current := hs.vis_reach current hcur_vis
        have hr := chain'_reachN m a l current hlchain hlhead hllast
        have hge : δ current ≤ l.length - 1 := hδ.le hr
        have hlpos : 1 ≤ l.length := List.length_pos.mpr hlne
        have hlen_exact : l.length = δ current + 1 := by omega
        refine ⟨by dsimp only; omega, ?_, ?_⟩
        · intro hp
          exact absurd hp (by simp)
        · intro p hp
          simp only at hp
          obtain rfl := Option.some_injective _ hp
          exact ⟨hlne, hlhead, hllast, hlchain, hlen_exact, hreachg, by simp; omega⟩
      · simp only [bfsDiscovery, hfr, if_neg hcg] at hres
        exact ih _ (hs.step_disc hδ hfr hcg) res hres

/-- Termination of `bfs` of `DepthFirst.py` from an invariant state: each
iteration strictly decreases unvisited-cell count plus frontier length. -/
theorem bfs_disc_terminates (hδ : IsDistFn m a δ) :
    ∀ (n : ℕ) (s : SState),
      ((boundCells m ∪ {a}) \ s.visited).card + s.frontier.length ≤ n →
      BfsDiscInv m a g δ s →
      ∃ fuel, (bfsDiscovery m a g fuel s).isSome = true := by
  intro n
  induction n using Nat.strong_induction_on with
  | _ n ih =>
    intro s hn hs
    rcases hfr : s.frontier with _ | ⟨current, rest⟩
    · exact ⟨1, by simp [bfsDiscovery, hfr]⟩
    · by_cases hcg : current = g
      · subst hcg
        have hcur_fr : current ∈ s.frontier := by
          rw [hfr]; exact List.mem_cons_self _ _
        have hcur_vis : current ∈ s.visited := hs.fr_sub current hcur_fr
        have hchain : ∀ x ∈ s.visited, ∀ p, s.parent x = some p →
            p ∈ s.visited ∧ x ∈ get_valid_adjacent m p ∧ δ p < δ x := by
          intro x _ p hp
          obtain ⟨h1, h2, h3⟩ := hs.parent_ok x p hp
          exact ⟨h1, h2, by omega⟩
        have hdep : δ current ≤ s.explored := hs.fr_depth current hcur_fr
        obtain ⟨l, hrev, -, -, -, -, -, -, -, -⟩ :=
          reveal_path_spec m a s.parent s.visited δ hchain hs.parent_def
            (δ current) current (le_refl _) hcur_vis
            (s.explored + 1) (by omega)
        exact ⟨1, by simp [bfsDiscovery, hfr, hrev]⟩
      · have hs' := hs.step_disc hδ hfr hcg
        have hcur_vis : current ∈ s.visited :=
          hs.fr_sub current (by rw [hfr]; exact List.mem_cons_self _ _)
        have hins : insert current s.visited = s.visited :=
          Finset.insert_eq_self.mpr hcur_vis
        have hSsub : ((getValidNeighbors m current).filter
              (fun x => decide (x ∉ insert current s.visited))).toFinset ⊆
            (boundCells m ∪ {a}) \ s.visited := by
          intro x hx
          obtain ⟨hxadj, hxvis⟩ := mem_admD.mp (List.mem_toFinset.mp hx)
          refine Finset.mem_sdiff.mpr ⟨Finset.mem_union_left _
            (mem_boundCells_of_valid (mem_get_valid_adjacent.mp hxadj).2), ?_⟩
          exact fun h => hxvis (Finset.mem_insert_of_mem h)
        have hcard : ((boundCells m ∪ {a}) \
            (insert current s.visited ∪
              ((getValidNeighbors m current).filter
                (fun x => decide (x ∉ insert current s.visited))).toFinset)).card =
            ((boundCells m ∪ {a}) \ s.visited).card -
              ((getValidNeighbors m current).filter
                (fun x => decide (x ∉ insert current s.visited))).toFinset.card := by
          have hsd : (boundCells m ∪ {a}) \
              (insert current s.visited ∪
                ((getValidNeighbors m current).filter
                  (fun x => decide (x ∉ insert current s.visited))).toFinset) =
              ((boundCells m ∪ {a}) \ s.visited) \
                ((getValidNeighbors m current).filter
                  (fun x => decide (x ∉ insert current s.visited))).toFinset := by
            ext z
            constructor
            · intro hz
              rw [Finset.mem_sdiff] at hz
              obtain ⟨hb, hz2⟩ := hz
              rw [Finset.mem_union] at hz2
              push_neg at hz2
              obtain ⟨h1, h2⟩ := hz2
              rw [Finset.mem_sdiff]
              exact ⟨Finset.mem_sdiff.mpr ⟨hb, fun h => h1 (Finset.mem_insert_of_mem h)⟩, h2⟩
            · intro hz
              rw [Finset.mem_sdiff] at hz
              obtain ⟨hz1, h2⟩ := hz
              rw [Finset.mem_sdiff] at hz1
              obtain ⟨hb, h1⟩ := hz1
              rw [Finset.mem_sdiff]
              refine ⟨hb, ?_⟩
              rw [Finset.mem_union]
              push_neg
              refine ⟨?_, h2⟩
              rw [Finset.mem_insert]
              push_neg
              exact ⟨fun h => h1 (h ▸ hcur_vis), h1⟩
          rw [hsd, Finset.card_sdiff hSsub]
        have hSle := Finset.card_le_card hSsub
        have htf : ((getValidNeighbors m current).filter
            (fun x => decide (x ∉ insert current s.visited))).toFinset.card =
            ((getValidNeighbors m current).filter
              (fun x => decide (x ∉ insert current s.visited))).length :=
          List.toFinset_card_of_nodup (admD_nodup m _ current)
        obtain ⟨fuel, hf⟩ := ih
          (((boundCells m ∪ {a}) \
            (insert current s.visited ∪
              ((getValidNeighbors m current).filter
                (fun x => decide (x ∉ insert current s.visited))).toFinset)).card +
            (rest ++ (getValidNeighbors m current).filter
              (fun x => decide (x ∉ insert current s.visited))).length)
          (by
            rw [hcard, List.length_append]
            rw [hfr] at hn
            simp only [List.length_cons] at hn
            omega)
          _ (le_refl _) hs'
        refine ⟨fuel + 1, ?_⟩
        simp only [bfsDiscovery, hfr]
        rw [if_neg hcg]
        exact hf

/-- Conclusions of a full `bfs` (DepthFirst.py) run from the initial state. -/
theorem bfs_disc_init_spec (hδ : IsDistFn m a δ) :
    ∀ fuel res, bfsDiscovery m a g fuel (searchInit a) = some res →
      1 ≤ res.explored ∧
      (res.path = none → ¬Reachable m a g) ∧
      (∀ p, res.path = some p → p ≠ [] ∧ p.head? = some a ∧ p.getLast? = some g ∧
        p.Chain' (StepOK m) ∧ p.length = δ g + 1 ∧ Reachable m a g ∧
        p.length ≤ res.explored) := by
  intro fuel res hres
  cases fuel with
  | zero => simp [bfsDiscovery] at hres
  | succ fuel =>
    by_cases hag : a = g
    · subst hag
      simp only [bfsDiscovery, searchInit, if_pos, reveal_path, if_true,
        Option.map_some'] at hres
      obtain rfl := Option.some_injective _ hres
      refine ⟨by dsimp only; omega, fun hp => absurd hp (by simp), fun p hp => ?_⟩
      simp only at hp
      obtain rfl := Option.some_injective _ hp
      refine ⟨by simp, by simp, by simp, by simp, by simp [hδ.start],
        reachable_start m a, by simp⟩
    · simp only [bfsDiscovery, searchInit] at hres
      rw [if_neg hag] at hres
      exact bfs_disc_run_spec hδ fuel _ (bfsDiscInv_init hδ hag) res hres

/-- `bfs` of `DepthFirst.py` terminates from the initial state. -/
theorem bfs_disc_init_terminates (hδ : IsDistFn m a δ) :
    ∃ fuel, (bfsDiscovery m a g fuel (searchInit a)).isSome = true := by
  by_cases hag : a = g
  · refine ⟨1, ?_⟩
    subst hag
    simp [bfsDiscovery, searchInit, reveal_path]
  · obtain ⟨fuel, hf⟩ := bfs_disc_terminates hδ _ _ (le_refl _) (bfsDiscInv_init hδ hag)
    refine ⟨fuel + 1, ?_⟩
    simp only [bfsDiscovery, searchInit]
    rw [if_neg hag]
    exact hf

end BfsDiscRun

/-! ### Invariants of the depth-first search (`depth_first_search`) -/

theorem mem_dfs_frontier {adm rest : List Cell} {x : Cell} :
    x ∈ adm.foldl (fun st n => n :: st) rest ↔ x ∈ adm ∨ x ∈ rest := by
  rw [foldl_cons_eq_reverse_append]
  simp

section Dfs

variable {m : Maze} {a g : Cell}

/-- Invariant of the running states of `depth_first_search`.  The
existentially quantified `rk` is a ghost visit-order rank witnessing
acyclicity of the parent chains. -/
structure DfsInv (m : Maze) (a g : Cell) (s : SState) : Prop where
  start_mem : a ∈ s.visited
  vis_reach : ∀ x ∈ s.visited, Reachable m a x
  fr_reach : ∀ x ∈ s.frontier, Reachable m a x
  closure : ∀ y ∈ s.visited, ∀ x ∈ get_valid_adjacent m y, x ∉ s.visited → x ∈ s.frontier
  rank : ∃ rk : Cell → ℕ, (∀ x ∈ s.visited, rk x < s.explored) ∧
    (∀ x p, s.parent x = some p → p ∈ s.visited ∧ x ∈ get_valid_adjacent m p ∧
      (x ∈ s.visited → rk p < rk x))
  parent_def : ∀ x, (x ∈ s.visited ∨ x ∈ s.frontier) → x ≠ a → (s.parent x).isSome = true
  one_le : 1 ≤ s.explored
  goal_not : g ∉ s.visited

/-- One non-goal iteration of `depth_first_search` preserves the invariant. -/
theorem DfsInv.step_dfs {s : SState} (hs : DfsInv m a g s)
    {current : Cell} {rest : List Cell} (hfr : s.frontier = current :: rest)
    (hcg : current ≠ g) :
    DfsInv m a g
      ⟨(admissibleExp m (insert current s.visited) current).foldl
          (fun st n => n :: st) rest,
       insert current s.visited,
       updParent s.parent (admissibleExp m (insert current s.visited) current) current,
       s.explored + 1⟩ := by
  have hcur_fr : current ∈ s.frontier := by rw [hfr]; exact List.mem_cons_self _ _
  have hcur_reach := hs.fr_reach current hcur_fr
  have hone := hs.one_le
  obtain ⟨rk, hrk_bound, hrk_pairs⟩ := hs.rank
  refine ⟨?_, ?_, ?_, ?_, ?_, ?_, ?_, ?_⟩
  all_goals dsimp only
  · exact Finset.mem_insert_of_mem hs.start_mem
  · intro x hx
    rcases Finset.mem_insert.mp hx with h | hx
    · rw [h]; exact hcur_reach
    · exact hs.vis_reach x hx
  · intro x hx
    rcases mem_dfs_frontier.mp hx with hx | hx
    · exact reachable_of_adj hcur_reach (mem_admissibleExp.mp hx).1
    · exact hs.fr_reach x (by rw [hfr]; exact List.mem_cons_of_mem _ hx)
  · intro y hy x hxadj hxvis
    rcases Finset.mem_insert.mp hy with h | hy
    · subst h
      exact mem_dfs_frontier.mpr (Or.inl (mem_admissibleExp.mpr ⟨hxadj, hxvis⟩))
    · have hx' : x ∉ s.visited := fun h => hxvis (Finset.mem_insert_of_mem h)
      have hxf := hs.closure y hy x hxadj hx'
      rw [hfr] at hxf
      rcases List.mem_cons.mp hxf with h | hx
      · exact absurd (h ▸ Finset.mem_insert_self x s.visited) (h ▸ hxvis)
      · exact mem_dfs_frontier.mpr (Or.inr hx)
  · by_cases hcv : current ∈ s.visited
    · refine ⟨rk, ?_, ?_⟩
      · intro x hx
        rcases Finset.mem_insert.mp hx with h | hx
        · have := hrk_bound current hcv; rw [h]; omega
        · have := hrk_bound x hx; omega
      · intro x p hp
        rcases updParent_eq_some hp with ⟨hxadm, rfl⟩ | ⟨hxadm, hp'⟩
        · refine ⟨Finset.mem_insert_self _ _, (mem_admissibleExp.mp hxadm).1, ?_⟩
          intro hx
          exact absurd hx (mem_admissibleExp.mp hxadm).2
        · obtain ⟨h1, h2, h3⟩ := hrk_pairs x p hp'
          refine ⟨Finset.mem_insert_of_mem h1, h2, ?_⟩
          intro hx
          rcases Finset.mem_insert.mp hx with h | hx
          · exact h3 (h ▸ hcv)
          · exact h3 hx
    · refine ⟨fun x => if x = current then s.explored else rk x, ?_, ?_⟩
      · intro x hx
        dsimp only
        rcases Finset.mem_insert.mp hx with h | hx
        · rw [if_pos h]; omega
        · rw [if_neg (show x ≠ current from fun hc => hcv (hc ▸ hx))]
          have := hrk_bound x hx; omega
      · intro x p hp
        rcases updParent_eq_some hp with ⟨hxadm, rfl⟩ | ⟨hxadm, hp'⟩
        · refine ⟨Finset.mem_insert_self _ _, (mem_admissibleExp.mp hxadm).1, ?_⟩
          intro hx
          exact absurd hx (mem_admissibleExp.mp hxadm).2
        · obtain ⟨h1, h2, h3⟩ := hrk_pairs x p hp'
          have hpc : p ≠ current := fun hc => hcv (hc ▸ h1)
          refine ⟨Finset.mem_insert_of_mem h1, h2, ?_⟩
          intro hx
          dsimp only
          rw [if_neg hpc]
          rcases Finset.mem_insert.mp hx with h | hx
          · rw [if_pos h]
            have := hrk_bound p h1
            omega
          · rw [if_neg (show x ≠ current from fun hc => hcv (hc ▸ hx))]
            exact h3 hx
  · intro x hx hxa
    rcases hx with hx | hx
    · rcases Finset.mem_insert.mp hx with h | hx
      · rw [h] at hxa ⊢
        exact updParent_isSome (Or.inl (hs.parent_def current (Or.inr hcur_fr) hxa))
      · exact updParent_isSome (Or.inl (hs.parent_def x (Or.inl hx) hxa))
    · rcases mem_dfs_frontier.mp hx with hx | hx
      · exact updParent_isSome (Or.inr hx)
      · exact updParent_isSome
          (Or.inl (hs.parent_def x
            (Or.inr (by rw [hfr]; exact List.mem_cons_of_mem _ hx)) hxa))
  · omega
  · intro hg
    rcases Finset.mem_insert.mp hg with h | hg
    · exact hcg h.symm
    · exact hs.goal_not hg

/-- The depth-first invariant holds after the first iteration (start ≠ goal). -/
theorem dfsInv_init (hag : a ≠ g) :
    DfsInv m a g
      ⟨(admissibleExp m (insert a (∅ : Finset Cell)) a).foldl
          (fun st n => n :: st) [],
       insert a (∅ : Finset Cell),
       updParent (fun _ => none) (admissibleExp m (insert a (∅ : Finset Cell)) a) a,
       0 + 1⟩ := by
  refine ⟨?_, ?_, ?_, ?_, ?_, ?_, ?_, ?_⟩
  all_goals dsimp only
  · exact Finset.mem_insert_self a ∅
  · intro x hx
    rcases Finset.mem_insert.mp hx with h | hx
    · rw [h]; exact reachable_start m a
    · exact absurd hx (Finset.not_mem_empty x)
  · intro x hx
    rcases mem_dfs_frontier.mp hx with hx | hx
    · exact reachable_of_adj (reachable_start m a) (mem_admissibleExp.mp hx).1
    · exact absurd hx (List.not_mem_nil x)
  · intro y hy x hxadj hxvis
    rcases Finset.mem_insert.mp hy with h | hy
    · subst h
      exact mem_dfs_frontier.mpr (Or.inl (mem_admissibleExp.mpr ⟨hxadj, hxvis⟩))
    · exact absurd hy (Finset.not_mem_empty y)
  · refine ⟨fun _ => 0, ?_, ?_⟩
    · intro x _; dsimp only; omega
    · intro x p hp
      rcases updParent_eq_some hp with ⟨hxadm, rfl⟩ | ⟨-, hp'⟩
      · refine ⟨Finset.mem_insert_self _ _, (mem_admissibleExp.mp hxadm).1, ?_⟩
        intro hx
        exact absurd hx (mem_admissibleExp.mp hxadm).2
      · exact absurd hp' (by simp)
  · intro x hx hxa
    rcases hx with hx | hx
    · rcases Finset.mem_insert.mp hx with h | hx
      · exact absurd h hxa
      · exact absurd hx (Finset.not_mem_empty x)
    · rcases mem_dfs_frontier.mp hx with hx | hx
      · exact updParent_isSome (Or.inr hx)
      · exact absurd hx (List.not_mem_nil x)
  · omega
  · intro hg
    rcases Finset.mem_insert.mp hg with h | hg
    · exact hag h.symm
    · exact absurd hg (Finset.not_mem_empty g)

end Dfs

section DfsRun

variable {m : Maze} {a g : Cell}

/-- Everything `depth_first_search` can return from an invariant state. -/
theorem dfs_run_spec :
    ∀ (fuel : ℕ) (s : SState), DfsInv m a g s →
      ∀ res, depth_first_search m a g fuel s = some res →
        1 ≤ res.explored ∧
        (res.path = none →
          (∀ x, x ∈ res.visitedSet ↔ Reachable m a x) ∧ ¬Reachable m a g) ∧
        (∀ p, res.path = some p → p ≠ [] ∧ p.head? = some a ∧ p.getLast? = some g ∧
          p.Chain' (StepOK m) ∧ Reachable m a g ∧ p.length ≤ res.explored) := by
  intro fuel
  induction fuel with
  | zero => intro s hs res hres; simp [depth_first_search] at hres
  | succ fuel ih =>
    intro s hs res hres
    rcases hfr : s.frontier with _ | ⟨current, rest⟩
    · simp only [depth_first_search, hfr] at hres
      obtain rfl := Option.some_injective _ hres
      have hcl : ∀ (n : ℕ) (x : Cell), reachN m a n x = true → x ∈ s.visited := by
        intro n
        induction n with
        | zero =>
          intro x hx
          rw [reachN_zero_iff.mp hx]
          exact hs.start_mem
        | succ n ihn =>
          intro x hx
          obtain ⟨hval, y, hyadj, hy⟩ := reachN_succ_iff.mp hx
          have hyv := ihn y hy
          have hxadj : x ∈ get_valid_adjacent m y :=
            mem_get_valid_adjacent.mpr ⟨adjacentCells_symm.mp hyadj, hval⟩
          by_contra hxv
          have hmem := hs.closure y hyv x hxadj hxv
          rw [hfr] at hmem
          exact absurd hmem (List.not_mem_nil x)
      refine ⟨hs.one_le, ?_, ?_⟩
      · exact fun _ =>
          ⟨fun x => ⟨fun hx => hs.vis_reach x hx, fun hr => hcl hr.choose x hr.choose_spec⟩,
           fun hr => hs.goal_not (hcl hr.choose g hr.choose_spec)⟩
      · intro p hp
        exact absurd hp (by simp)
    · by_cases hcg : current = g
      · subst hcg
        simp only [depth_first_search, hfr, if_pos] at hres
        have hcur_fr : current ∈ s.frontier := by
          rw [hfr]; exact List.mem_cons_self _ _
        have hcv : current ∉ s.visited := hs.goal_not
        obtain ⟨rk, hrk_bound, hrk_pairs⟩ := hs.rank
        have hchain : ∀ x ∈ insert current s.visited, ∀ p, s.parent x = some p →
            p ∈ insert current s.visited ∧ x ∈ get_valid_adjacent m p ∧
            (if p = current then s.explored else rk p) <
              (if x = current then s.explored else rk x) := by
          intro x hx p hp
          obtain ⟨h1, h2, h3⟩ := hrk_pairs x p hp
          have hpc : p ≠ current := fun hc => hcv (hc ▸ h1)
          refine ⟨Finset.mem_insert_of_mem h1, h2, ?_⟩
          rw [if_neg hpc]
          rcases Finset.mem_insert.mp hx with h | hx
          · rw [if_pos h]
            have := hrk_bound p h1
            omega
          · rw [if_neg (show x ≠ current from fun hc => hcv (hc ▸ hx))]
            exact h3 hx
        have hdef : ∀ x ∈ insert current s.visited, x ≠ a →
            (s.parent x).isSome = true := by
          intro x hx hxa
          rcases Finset.mem_insert.mp hx with h | hx
          · rw [h] at hxa ⊢
            exact hs.parent_def current (Or.inr hcur_fr) hxa
          · exact hs.parent_def x (Or.inl hx) hxa
        obtain ⟨l, hrev, hlne, hlhead, hllast, hlchain, hllen, -, -, -⟩ :=
          reveal_path_spec m a s.parent (insert current s.visited)
            (fun x => if x = current then s.explored else rk x) hchain hdef
            s.explored current (by simp) (Finset.mem_insert_self _ _)
            (s.explored + 1) (by simp)
        rw [hrev] at hres
        simp only [Option.map_some'] at hres
        obtain rfl := Option.some_injective _ hres
        have hreachg : Reachable m a current := hs.fr_reach current hcur_fr
        refine ⟨by dsimp only; omega, ?_, ?_⟩
        · intro hp
          exact absurd hp (by simp)
        · intro p hp
          simp only at hp
          obtain rfl := Option.some_injective _ hp
          refine ⟨hlne, hlhead, hllast, hlchain, hreachg, ?_⟩
          simp at hllen
          simp
          omega
      · simp only [depth_first_search, hfr, if_neg hcg] at hres
        exact ih _ (hs.step_dfs hfr hcg) res hres

/-- Termination of `depth_first_search` from an invariant state. -/
theorem dfs_terminates :
    ∀ (n₁ : ℕ) (s : SState), ((boundCells m ∪ {a}) \ s.visited).card ≤ n₁ →
      DfsInv m a g s →
      ∃ fuel, (depth_first_search m a g fuel s).isSome = true := by
  intro n₁
  induction n₁ using Nat.strong_induction_on with
  | _ n₁ ih₁ =>
    suffices H : ∀ (n₂ : ℕ) (s : SState),
        ((boundCells m ∪ {a}) \ s.visited).card ≤ n₁ →
        (s.frontier.filter (fun x => decide (x ∈ s.visited))).length ≤ n₂ →
        DfsInv m a g s →
        ∃ fuel, (depth_first_search m a g fuel s).isSome = true by
      intro s h1 hs
      exact H _ s h1 (le_refl _) hs
    intro n₂
    induction n₂ using Nat.strong_induction_on with
    | _ n₂ ih₂ =>
      intro s h1 h2 hs
      rcases hfr : s.frontier with _ | ⟨current, rest⟩
      · exact ⟨1, by simp [depth_first_search, hfr]⟩
      · by_cases hcg : current = g
        · subst hcg
          have hcur_fr : current ∈ s.frontier := by
            rw [hfr]; exact List.mem_cons_self _ _
          have hcv : current ∉ s.visited := hs.goal_not
          obtain ⟨rk, hrk_bound, hrk_pairs⟩ := hs.rank
          have hchain : ∀ x ∈ insert current s.visited, ∀ p, s.parent x = some p →
              p ∈ insert current s.visited ∧ x ∈ get_valid_adjacent m p ∧
              (if p = current then s.explored else rk p) <
                (if x = current then s.explored else rk x) := by
            intro x hx p hp
            obtain ⟨h1', h2', h3'⟩ := hrk_pairs x p hp
            have hpc : p ≠ current := fun hc => hcv (hc ▸ h1')
            refine ⟨Finset.mem_insert_of_mem h1', h2', ?_⟩
            rw [if_neg hpc]
            rcases Finset.mem_insert.mp hx with h | hx
            · rw [if_pos h]
              have := hrk_bound p h1'
              omega
            · rw [if_neg (show x ≠ current from fun hc => hcv (hc ▸ hx))]
              exact h3' hx
          have hdef : ∀ x ∈ insert current s.visited, x ≠ a →
              (s.parent x).isSome = true := by
            intro x hx hxa
            rcases Finset.mem_insert.mp hx with h | hx
            · rw [h] at hxa ⊢
              exact hs.parent_def current (Or.inr hcur_fr) hxa
            · exact hs.parent_def x (Or.inl hx) hxa
          obtain ⟨l, hrev, -, -, -, -, -, -, -, -⟩ :=
            reveal_path_spec m a s.parent (insert current s.visited)
              (fun x => if x = current then s.explored else rk x) hchain hdef
              s.explored current (by simp) (Finset.mem_insert_self _ _)
              (s.explored + 1) (by simp)
          exact ⟨1, by simp [depth_first_search, hfr, hrev]⟩
        · have hs' := hs.step_dfs hfr hcg
          by_cases hcv : current ∈ s.visited
          · have hvis_eq : insert current s.visited = s.visited :=
              Finset.insert_eq_self.mpr hcv
            have hadm_no : ∀ x ∈ admissibleExp m (insert current s.visited) current,
                x ∉ insert current s.visited :=
              fun x hx => (mem_admissibleExp.mp hx).2
            have hfil2 : (((admissibleExp m (insert current s.visited) current).foldl
                  (fun st n => n :: st) rest).filter
                (fun x => decide (x ∈ insert current s.visited))).length <
                ((s.frontier.filter (fun x => decide (x ∈ s.visited)))).length := by
              rw [foldl_cons_eq_reverse_append, List.filter_append,
                hfr, List.filter_cons]
              have hd : decide (current ∈ s.visited) = true := decide_eq_true_iff.mpr hcv
              rw [hd]
              have hnil : ((admissibleExp m (insert current s.visited) current).reverse.filter
                  (fun x => decide (x ∈ insert current s.visited))) = [] := by
                rw [List.filter_eq_nil_iff]
                intro x hx
                simpa using hadm_no x (List.mem_reverse.mp hx)
              rw [hnil, hvis_eq]
              simp
            obtain ⟨fuel, hf⟩ := ih₂
              ((((admissibleExp m (insert current s.visited) current).foldl
                  (fun st n => n :: st) rest).filter
                (fun x => decide (x ∈ insert current s.visited))).length)
              (by omega) _ (by dsimp only; rw [hvis_eq]; exact h1) (le_refl _) hs'
            refine ⟨fuel + 1, ?_⟩
            simp only [depth_first_search, hfr]
            rw [if_neg hcg]
            exact hf
          · have hcur_reach := hs.fr_reach current (by rw [hfr]; exact List.mem_cons_self _ _)
            have hcurB : current ∈ boundCells m ∪ {a} := by
              rcases reachable_valid_or_start hcur_reach with h | h
              · exact Finset.mem_union_left _ (mem_boundCells_of_valid h)
              · exact Finset.mem_union_right _ (by simp [h])
            have hsub : (boundCells m ∪ {a}) \ insert current s.visited ⊂
                (boundCells m ∪ {a}) \ s.visited := by
              refine (Finset.ssubset_iff_of_subset
                (Finset.sdiff_subset_sdiff (le_refl _) (Finset.subset_insert _ _))).mpr ?_
              exact ⟨current, Finset.mem_sdiff.mpr ⟨hcurB, hcv⟩,
                fun h => (Finset.mem_sdiff.mp h).2 (Finset.mem_insert_self _ _)⟩
            have hlt := Finset.card_lt_card hsub
            obtain ⟨fuel, hf⟩ := ih₁
              (((boundCells m ∪ {a}) \ insert current s.visited).card)
              (by omega) _ (le_refl _) hs'
            refine ⟨fuel + 1, ?_⟩
            simp only [depth_first_search, hfr]
            rw [if_neg hcg]
            exact hf

/-- Conclusions of a full `depth_first_search` run from the initial state. -/
theorem dfs_init_spec :
    ∀ fuel res, depth_first_search m a g fuel (searchInit a) = some res →
      1 ≤ res.explored ∧
      (res.path = none →
        (∀ x, x ∈ res.visitedSet ↔ Reachable m a x) ∧ ¬Reachable m a g) ∧
      (∀ p, res.path = some p → p ≠ [] ∧ p.head? = some a ∧ p.getLast? = some g ∧
        p.Chain' (StepOK m) ∧ Reachable m a g ∧ p.length ≤ res.explored) := by
  intro fuel res hres
  cases fuel with
  | zero => simp [depth_first_search] at hres
  | succ fuel =>
    by_cases hag : a = g
    · subst hag
      simp only [depth_first_search, searchInit, if_pos, reveal_path, if_true,
        Option.map_some'] at hres
      obtain rfl := Option.some_injective _ hres
      refine ⟨by dsimp only; omega, fun hp => absurd hp (by simp), fun p hp => ?_⟩
      simp only at hp
      obtain rfl := Option.some_injective _ hp
      refine ⟨by simp, by simp, by simp, by simp, reachable_start m a, by simp⟩
    · simp only [depth_first_search, searchInit] at hres
      rw [if_neg hag] at hres
      exact dfs_run_spec fuel _ (dfsInv_init hag) res hres

/-- `depth_first_search` terminates from the initial state. -/
theorem dfs_init_terminates :
    ∃ fuel, (depth_first_search m a g fuel (searchInit a)).isSome = true := by
  by_cases hag : a = g
  · refine ⟨1, ?_⟩
    subst hag
    simp [depth_first_search, searchInit, reveal_path]
  · obtain ⟨fuel, hf⟩ := dfs_terminates _ _ (le_refl _) (dfsInv_init hag)
    refine ⟨fuel + 1, ?_⟩
    simp only [depth_first_search, searchInit]
    rw [if_neg hag]
    exact hf

end DfsRun

/-! ### The heap model: `entryLe` and `extractMin` -/

theorem entryLe_refl (e : ℕ × Cell) : entryLe e e = true := by
  unfold entryLe
  split_ifs <;> simp_all

theorem entryLe_total (e₁ e₂ : ℕ × Cell) :
    entryLe e₁ e₂ = true ∨ entryLe e₂ e₁ = true := by
  unfold entryLe
  split_ifs <;> simp_all <;> omega

theorem entryLe_trans {e₁ e₂ e₃ : ℕ × Cell}
    (h₁ : entryLe e₁ e₂ = true) (h₂ : entryLe e₂ e₃ = true) :
    entryLe e₁ e₃ = true := by
  unfold entryLe at h₁ h₂ ⊢
  split_ifs at h₁ h₂ ⊢ <;> simp_all <;> omega

theorem extractMin_eq_none {l : List (ℕ × Cell)} :
    extractMin l = none ↔ l = [] := by
  cases l with
  | nil => simp [extractMin]
  | cons e rest =>
    simp only [extractMin]
    rcases hr : extractMin rest with _ | ⟨mm, rest'⟩
    · simp
    · dsimp only
      split <;> simp

/-- `extractMin` returns a least entry (under `entryLe`) together with the
remaining entries (a permutation witness). -/
theorem extractMin_spec :
    ∀ {l : List (ℕ × Cell)} {e : ℕ × Cell} {l' : List (ℕ × Cell)},
      extractMin l = some (e, l') →
      e ∈ l ∧ l.Perm (e :: l') ∧ ∀ e' ∈ l, entryLe e e' = true := by
  intro l
  induction l with
  | nil => intro e l' h; simp [extractMin] at h
  | cons x rest ih =>
    intro e l' h
    rw [extractMin] at h
    rcases hr : extractMin rest with _ | ⟨⟨mm, rest'⟩⟩ <;> rw [hr] at h
    · have hrest : rest = [] := extractMin_eq_none.mp hr
      subst hrest
      simp only [Option.some_injective] at h
      injection h with h
      injection h with h1 h2
      subst h1
      subst h2
      refine ⟨List.mem_cons_self _ _, List.Perm.refl _, ?_⟩
      intro e' he'
      rcases List.mem_cons.mp he' with rfl | he'
      · exact entryLe_refl e'
      · exact absurd he' (List.not_mem_nil e')
    · obtain ⟨hm, hperm, hmin⟩ := ih hr
      dsimp only at h
      split at h
      · next hle =>
        injection h with h
        injection h with h1 h2
        subst h1
        subst h2
        refine ⟨List.mem_cons_self _ _, List.Perm.refl _, ?_⟩
        intro e' he'
        rcases List.mem_cons.mp he' with rfl | he'
        · exact entryLe_refl e'
        · exact entryLe_trans hle (hmin e' he')
      · next hle =>
        injection h with h
        injection h with h1 h2
        subst h1
        subst h2
        refine ⟨List.mem_cons_of_mem _ hm, ?_, ?_⟩
        · exact (hperm.cons x).trans (List.Perm.swap mm x rest')
        · intro e' he'
          rcases List.mem_cons.mp he' with rfl | he'
          · rcases entryLe_total e' mm with h | h
            · exact absurd h hle
            · exact h
          · exact hmin e' he'

/-- Membership in the A* admission list. -/
theorem mem_admissibleAstar {m : Maze} {vis : Finset Cell} {cost : Cell → Option ℕ}
    {nc : ℕ} {current x : Cell} :
    x ∈ admissibleAstar m vis cost nc current ↔
      x ∈ get_valid_adjacent m current ∧ (x ∉ vis ∨ nc < (cost x).getD 0) := by
  simp [admissibleAstar, List.mem_filter]

/-! ### Invariants of the A* search (`a_star_search`) -/

section Astar

variable {m : Maze} {a g : Cell}

/-- Invariant of the running states of `a_star_search`. -/
structure AstarInv (m : Maze) (a g : Cell) (s : AState) : Prop where
  start_mem : a ∈ s.visited
  heap_reach : ∀ e ∈ s.heap, Reachable m a e.2
  heap_cell : ∀ e ∈ s.heap, is_valid_location m e.2 = true ∨ e.2 = a
  vis_reach : ∀ x ∈ s.visited, Reachable m a x
  closure : ∀ y ∈ s.visited, ∀ x ∈ get_valid_adjacent m y, x ∉ s.visited →
    ∃ e ∈ s.heap, e.2 = x
  parent_ok : ∀ x p, s.parent x = some p → p ∈ s.visited ∧
    x ∈ get_valid_adjacent m p ∧
    ∃ cx cp, s.costPath x = some cx ∧ s.costPath p = some cp ∧ cp < cx
  parent_def : ∀ x, (x ∈ s.visited ∨ ∃ e ∈ s.heap, e.2 = x) → x ≠ a →
    (s.parent x).isSome = true
  cost_start : s.costPath a = some 0
  cost_vis : ∀ x ∈ s.visited, (s.costPath x).isSome = true
  cost_heap : ∀ e ∈ s.heap, (s.costPath e.2).isSome = true
  cost_bound : ∀ x v, s.costPath x = some v → v ≤ s.explored
  cost_zero : ∀ x, s.costPath x = some 0 → x = a
  one_le : 1 ≤ s.explored
  goal_not : g ∉ s.visited

/-- One non-goal iteration of `a_star_search` preserves the invariant. -/
theorem AstarInv.step_astar {s : AState} (hs : AstarInv m a g s)
    {f : ℕ} {current : Cell} {rest : List (ℕ × Cell)}
    (hext : extractMin s.heap = some ((f, current), rest))
    (hcg : current ≠ g) :
    AstarInv m a g
      ⟨rest ++ (admissibleAstar m (insert current s.visited) s.costPath
            ((s.costPath current).getD 0 + 1) current).map
            (fun n => (((s.costPath current).getD 0 + 1) + heuristic_cost n g, n)),
       insert current s.visited,
       updParent s.parent
         (admissibleAstar m (insert current s.visited) s.costPath
           ((s.costPath current).getD 0 + 1) current) current,
       fun x =>
         if x ∈ admissibleAstar m (insert current s.visited) s.costPath
             ((s.costPath current).getD 0 + 1) current then
           some ((s.costPath current).getD 0 + 1)
         else s.costPath x,
       s.explored + 1⟩ := by
  obtain ⟨hmem, hperm, hmin⟩ := extractMin_spec hext
  have hrest_sub : ∀ e ∈ rest, e ∈ s.heap := by
    intro e he
    exact hperm.symm.subset (List.mem_cons_of_mem _ he)
  have hcur_reach : Reachable m a current := hs.heap_reach _ hmem
  obtain ⟨c₀, hc₀⟩ := Option.isSome_iff_exists.mp (hs.cost_heap _ hmem)
  have hgd : (s.costPath current).getD 0 = c₀ := by rw [hc₀]; rfl
  have hc₀b : c₀ ≤ s.explored := hs.cost_bound current c₀ hc₀
  have hone := hs.one_le
  have hanadm : a ∉ admissibleAstar m (insert current s.visited) s.costPath
      ((s.costPath current).getD 0 + 1) current := by
    intro ha
    obtain ⟨-, hcond⟩ := mem_admissibleAstar.mp ha
    rcases hcond with hcond | hcond
    · exact hcond (Finset.mem_insert_of_mem hs.start_mem)
    · rw [hs.cost_start] at hcond
      simp at hcond
  have hcur_nadm : current ∉ admissibleAstar m (insert current s.visited) s.costPath
      ((s.costPath current).getD 0 + 1) current := by
    intro hc
    have := (mem_admissibleAstar.mp hc).1
    have hadj := (mem_get_valid_adjacent.mp this).1
    exact self_not_mem_adjacentCells current (adjacentCells_symm.mp hadj)
  refine ⟨?_, ?_, ?_, ?_, ?_, ?_, ?_, ?_, ?_, ?_, ?_, ?_, ?_, ?_⟩
  all_goals dsimp only
  · exact Finset.mem_insert_of_mem hs.start_mem
  · intro e he
    rcases List.mem_append.mp he with he | he
    · exact hs.heap_reach e (hrest_sub e he)
    · obtain ⟨n, hn, rfl⟩ := List.mem_map.mp he
      exact reachable_of_adj hcur_reach (mem_admissibleAstar.mp hn).1
  · intro e he
    rcases List.mem_append.mp he with he | he
    · exact hs.heap_cell e (hrest_sub e he)
    · obtain ⟨n, hn, rfl⟩ := List.mem_map.mp he
      exact Or.inl (mem_get_valid_adjacent.mp (mem_admissibleAstar.mp hn).1).2
  · intro x hx
    rcases Finset.mem_insert.mp hx with h | hx
    · rw [h]; exact hcur_reach
    · exact hs.vis_reach x hx
  · intro y hy x hxadj hxvis
    rcases Finset.mem_insert.mp hy with h | hy
    · subst h
      have hxadm : x ∈ admissibleAstar m (insert y s.visited) s.costPath
          ((s.costPath y).getD 0 + 1) y :=
        mem_admissibleAstar.mpr ⟨hxadj, Or.inl hxvis⟩
      exact ⟨_, List.mem_append.mpr (Or.inr (List.mem_map.mpr ⟨x, hxadm, rfl⟩)), rfl⟩
    · have hx' : x ∉ s.visited := fun h => hxvis (Finset.mem_insert_of_mem h)
      obtain ⟨e, he, hex⟩ := hs.closure y hy x hxadj hx'
      have hecur : e ≠ (f, current) := by
        intro h
        rw [h] at hex
        exact hxvis (hex ▸ Finset.mem_insert_self current s.visited)
      have he' : e ∈ (f, current) :: rest := hperm.subset he
      rcases List.mem_cons.mp he' with h | h
      · exact absurd h hecur
      · exact ⟨e, List.mem_append.mpr (Or.inl h), hex⟩
  · intro x p hp
    rcases updParent_eq_some hp with ⟨hxadm, rfl⟩ | ⟨hxadm, hp'⟩
    · refine ⟨Finset.mem_insert_self _ _, (mem_admissibleAstar.mp hxadm).1, ?_⟩
      refine ⟨c₀ + 1, c₀, ?_, ?_, by omega⟩
      · rw [if_pos hxadm, hgd]
      · rw [if_neg hcur_nadm]
        exact hc₀
    · obtain ⟨h1, h2, cx, cp, hcx, hcp, hlt⟩ := hs.parent_ok x p hp'
      refine ⟨Finset.mem_insert_of_mem h1, h2, ?_⟩
      by_cases hpadm : p ∈ admissibleAstar m (insert current s.visited) s.costPath
          ((s.costPath current).getD 0 + 1) current
      · have hplt : (s.costPath current).getD 0 + 1 < cp := by
          obtain ⟨-, hcond⟩ := mem_admissibleAstar.mp hpadm
          rcases hcond with hcond | hcond
          · exact absurd (Finset.mem_insert_of_mem h1) hcond
          · rw [hcp] at hcond
            exact hcond
        refine ⟨cx, (s.costPath current).getD 0 + 1, ?_, ?_, by omega⟩
        · rw [if_neg hxadm]; exact hcx
        · rw [if_pos hpadm]
      · refine ⟨cx, cp, ?_, ?_, hlt⟩
        · rw [if_neg hxadm]; exact hcx
        · rw [if_neg hpadm]; exact hcp
  · intro x hx hxa
    rcases hx with hx | hx
    · rcases Finset.mem_insert.mp hx with h | hx
      · rw [h] at hxa ⊢
        exact updParent_isSome (Or.inl (hs.parent_def current
          (Or.inr ⟨(f, current), hmem, rfl⟩) hxa))
      · exact updParent_isSome (Or.inl (hs.parent_def x (Or.inl hx) hxa))
    · obtain ⟨e, he, hex⟩ := hx
      rcases List.mem_append.mp he with he | he
      · exact updParent_isSome (Or.inl (hs.parent_def x
          (Or.inr ⟨e, hrest_sub e he, hex⟩) hxa))
      · obtain ⟨n, hn, rfl⟩ := List.mem_map.mp he
        exact updParent_isSome (Or.inr (hex ▸ hn))
  · rw [if_neg hanadm]
    exact hs.cost_start
  · intro x hx
    rcases Finset.mem_insert.mp hx with h | hx
    · subst h
      rw [if_neg hcur_nadm, hc₀]
      rfl
    · split
      · rfl
      · exact hs.cost_vis x hx
  · intro e he
    rcases List.mem_append.mp he with he | he
    · split
      · rfl
      · exact hs.cost_heap e (hrest_sub e he)
    · obtain ⟨n, hn, rfl⟩ := List.mem_map.mp he
      dsimp only
      rw [if_pos hn]
      rfl
  · intro x v hv
    split at hv
    · injection hv with hv
      omega
    · have := hs.cost_bound x v hv
      omega
  · intro x hv
    split at hv
    · injection hv with hv
      omega
    · exact hs.cost_zero x hv
  · omega
  · intro hg
    rcases Finset.mem_insert.mp hg with h | hg
    · exact hcg h.symm
    · exact hs.goal_not hg

end Astar

section AstarRun

variable {m : Maze} {a g : Cell}

/-- The A* invariant holds after the first iteration (start ≠ goal),
stated over the simplified successor state. -/
theorem astarInv_init (hag : a ≠ g) :
    AstarInv m a g
      ⟨(admissibleAstar m (insert a (∅ : Finset Cell))
            (fun x => if x = a then some 0 else none) 1 a).map
            (fun n => (1 + heuristic_cost n g, n)),
       insert a (∅ : Finset Cell),
       updParent (fun _ => none)
         (admissibleAstar m (insert a (∅ : Finset Cell))
           (fun x => if x = a then some 0 else none) 1 a) a,
       fun x =>
         if x ∈ admissibleAstar m (insert a (∅ : Finset Cell))
             (fun x => if x = a then some 0 else none) 1 a then some 1
         else if x = a then some 0 else none,
       1⟩ := by
  have hanadm : a ∉ admissibleAstar m (insert a (∅ : Finset Cell))
      (fun x => if x = a then some 0 else none) 1 a := by
    intro hc
    have := (mem_admissibleAstar.mp hc).1
    have hadj := (mem_get_valid_adjacent.mp this).1
    exact self_not_mem_adjacentCells a (adjacentCells_symm.mp hadj)
  refine ⟨?_, ?_, ?_, ?_, ?_, ?_, ?_, ?_, ?_, ?_, ?_, ?_, ?_, ?_⟩
  all_goals dsimp only
  · exact Finset.mem_insert_self a ∅
  · intro e he
    obtain ⟨n, hn, rfl⟩ := List.mem_map.mp he
    exact reachable_of_adj (reachable_start m a) (mem_admissibleAstar.mp hn).1
  · intro e he
    obtain ⟨n, hn, rfl⟩ := List.mem_map.mp he
    exact Or.inl (mem_get_valid_adjacent.mp (mem_admissibleAstar.mp hn).1).2
  · intro x hx
    rcases Finset.mem_insert.mp hx with h | hx
    · rw [h]; exact reachable_start m a
    · exact absurd hx (Finset.not_mem_empty x)
  · intro y hy x hxadj hxvis
    rcases Finset.mem_insert.mp hy with h | hy
    · subst h
      have hxadm : x ∈ admissibleAstar m (insert y (∅ : Finset Cell))
          (fun x => if x = y then some 0 else none) 1 y :=
        mem_admissibleAstar.mpr ⟨hxadj, Or.inl hxvis⟩
      exact ⟨_, List.mem_map.mpr ⟨x, hxadm, rfl⟩, rfl⟩
    · exact absurd hy (Finset.not_mem_empty y)
  · intro x p hp
    rcases updParent_eq_some hp with ⟨hxadm, rfl⟩ | ⟨-, hp'⟩
    · refine ⟨Finset.mem_insert_self _ _, (mem_admissibleAstar.mp hxadm).1,
        1, 0, ?_, ?_, by omega⟩
      · rw [if_pos hxadm]
      · rw [if_neg hanadm, if_pos rfl]
    · exact absurd hp' (by simp)
  · intro x hx hxa
    rcases hx with hx | hx
    · rcases Finset.mem_insert.mp hx with h | hx
      · exact absurd h hxa
      · exact absurd hx (Finset.not_mem_empty x)
    · obtain ⟨e, he, hex⟩ := hx
      obtain ⟨n, hn, rfl⟩ := List.mem_map.mp he
      exact updParent_isSome (Or.inr (hex ▸ hn))
  · rw [if_neg hanadm, if_pos rfl]
  · intro x hx
    rcases Finset.mem_insert.mp hx with h | hx
    · rw [if_neg (h ▸ hanadm), if_pos h]
      rfl
    · exact absurd hx (Finset.not_mem_empty x)
  · intro e he
    obtain ⟨n, hn, rfl⟩ := List.mem_map.mp he
    dsimp only
    rw [if_pos hn]
    rfl
  · intro x v hv
    split at hv
    · injection hv with hv; omega
    · split at hv
      · injection hv with hv; omega
      · exact absurd hv (by simp)
  · intro x hv
    split at hv
    · injection hv with hv; omega
    · split at hv
      · next h => exact h
      · exact absurd hv (by simp)
  · omega
  · intro hg
    rcases Finset.mem_insert.mp hg with h | hg
    · exact hag h.symm
    · exact absurd hg (Finset.not_mem_empty g)

/-- Everything `a_star_search` can return from an invariant state. -/
theorem astar_run_spec :
    ∀ (fuel : ℕ) (s : AState), AstarInv m a g s →
      ∀ res, a_star_search m a g fuel s = some res →
        1 ≤ res.explored ∧
        (res.path = none →
          (∀ x, x ∈ res.visitedSet ↔ Reachable m a x) ∧ ¬Reachable m a g) ∧
        (∀ p, res.path = some p → p ≠ [] ∧ p.head? = some a ∧ p.getLast? = some g ∧
          p.Chain' (StepOK m) ∧ Reachable m a g ∧ p.length ≤ res.explored) := by
  intro fuel
  induction fuel with
  | zero => intro s hs res hres; simp [a_star_search] at hres
  | succ fuel ih =>
    intro s hs res hres
    simp only [a_star_search, astarStep] at hres
    rcases hext : extractMin s.heap with _ | ⟨⟨f, current⟩, rest⟩ <;>
      rw [hext] at hres <;> dsimp only at hres
    · obtain rfl := Option.some_injective _ hres
      have hheap : s.heap = [] := extractMin_eq_none.mp hext
      have hcl : ∀ (n : ℕ) (x : Cell), reachN m a n x = true → x ∈ s.visited := by
        intro n
        induction n with
        | zero =>
          intro x hx
          rw [reachN_zero_iff.mp hx]
          exact hs.start_mem
        | succ n ihn =>
          intro x hx
          obtain ⟨hval, y, hyadj, hy⟩ := reachN_succ_iff.mp hx
          have hyv := ihn y hy
          have hxadj : x ∈ get_valid_adjacent m y :=
            mem_get_valid_adjacent.mpr ⟨adjacentCells_symm.mp hyadj, hval⟩
          by_contra hxv
          obtain ⟨e, he, -⟩ := hs.closure y hyv x hxadj hxv
          rw [hheap] at he
          exact absurd he (List.not_mem_nil e)
      refine ⟨hs.one_le, ?_, ?_⟩
      · exact fun _ =>
          ⟨fun x => ⟨fun hx => hs.vis_reach x hx, fun hr => hcl hr.choose x hr.choose_spec⟩,
           fun hr => hs.goal_not (hcl hr.choose g hr.choose_spec)⟩
      · intro p hp
        exact absurd hp (by simp)
    · obtain ⟨hmem, hperm, hmin⟩ := extractMin_spec hext
      by_cases hcg : current = g
      · subst hcg
        rw [if_pos rfl] at hres
        obtain ⟨c₀, hc₀⟩ := Option.isSome_iff_exists.mp (hs.cost_heap _ hmem)
        dsimp only at hc₀
        have hc₀b : c₀ ≤ s.explored := hs.cost_bound current c₀ hc₀
        have hchain : ∀ x ∈ insert current s.visited, ∀ p, s.parent x = some p →
            p ∈ insert current s.visited ∧ x ∈ get_valid_adjacent m p ∧
            (s.costPath p).getD 0 < (s.costPath x).getD 0 := by
          intro x _ p hp
          obtain ⟨h1, h2, cx, cp, hcx, hcp, hlt⟩ := hs.parent_ok x p hp
          refine ⟨Finset.mem_insert_of_mem h1, h2, ?_⟩
          rw [hcx, hcp]
          exact hlt
        have hdef : ∀ x ∈ insert current s.visited, x ≠ a →
            (s.parent x).isSome = true := by
          intro x hx hxa
          rcases Finset.mem_insert.mp hx with h | hx
          · rw [h] at hxa ⊢
            exact hs.parent_def current (Or.inr ⟨(f, current), hmem, rfl⟩) hxa
          · exact hs.parent_def x (Or.inl hx) hxa
        obtain ⟨l, hrev, hlne, hlhead, hllast, hlchain, hllen, -, -, -⟩ :=
          reveal_path_spec m a s.parent (insert current s.visited)
            (fun x => (s.costPath x).getD 0) hchain hdef
            ((s.costPath current).getD 0) current (le_refl _)
            (Finset.mem_insert_self _ _)
            (s.explored + 1) (by dsimp only; rw [hc₀]; simp; omega)
        rw [hrev] at hres
        simp only [Option.map_some'] at hres
        obtain rfl := Option.some_injective _ hres
        have hreachg : Reachable m a current := hs.heap_reach _ hmem
        refine ⟨by dsimp only; omega, ?_, ?_⟩
        · intro hp
          exact absurd hp (by simp)
        · intro p hp
          simp only at hp
          obtain rfl := Option.some_injective _ hp
          refine ⟨hlne, hlhead, hllast, hlchain, hreachg, ?_⟩
          rw [hc₀] at hllen
          simp at hllen
          simp
          omega
      · rw [if_neg hcg] at hres
        exact ih _ (hs.step_astar hext hcg) res hres

end AstarRun

section AstarTermination

variable {m : Maze} {a g : Cell}

/-- Termination of `a_star_search` from an invariant state.  Lexicographic
measure: unvisited in-bounds cells, then the total recorded cost of visited
cells, then the number of heap entries whose cell is visited. -/
theorem astar_terminates :
    ∀ (n₁ : ℕ) (s : AState), ((boundCells m ∪ {a}) \ s.visited).card ≤ n₁ →
      AstarInv m a g s →
      ∃ fuel, (a_star_search m a g fuel s).isSome = true := by
  intro n₁
  induction n₁ using Nat.strong_induction_on with
  | _ n₁ ih₁ =>
    suffices H2 : ∀ (n₂ : ℕ) (s : AState),
        ((boundCells m ∪ {a}) \ s.visited).card ≤ n₁ →
        s.visited.sum (fun x => (s.costPath x).getD 0) ≤ n₂ →
        AstarInv m a g s →
        ∃ fuel, (a_star_search m a g fuel s).isSome = true by
      intro s h1 hs
      exact H2 _ s h1 (le_refl _) hs
    intro n₂
    induction n₂ using Nat.strong_induction_on with
    | _ n₂ ih₂ =>
      suffices H3 : ∀ (n₃ : ℕ) (s : AState),
          ((boundCells m ∪ {a}) \ s.visited).card ≤ n₁ →
          s.visited.sum (fun x => (s.costPath x).getD 0) ≤ n₂ →
          (s.heap.filter (fun e => decide (e.2 ∈ s.visited))).length ≤ n₃ →
          AstarInv m a g s →
          ∃ fuel, (a_star_search m a g fuel s).isSome = true by
        intro s h1 h2 hs
        exact H3 _ s h1 h2 (le_refl _) hs
      intro n₃
      induction n₃ using Nat.strong_induction_on with
      | _ n₃ ih₃ =>
        intro s h1 h2 h3 hs
        rcases hext : extractMin s.heap with _ | ⟨⟨f, current⟩, rest⟩
        · exact ⟨1, by simp [a_star_search, astarStep, hext]⟩
        · obtain ⟨hmem, hperm, hmin⟩ := extractMin_spec hext
          by_cases hcg : current = g
          · subst hcg
            obtain ⟨c₀, hc₀⟩ := Option.isSome_iff_exists.mp (hs.cost_heap _ hmem)
            dsimp only at hc₀
            have hc₀b : c₀ ≤ s.explored := hs.cost_bound current c₀ hc₀
            have hchain : ∀ x ∈ insert current s.visited, ∀ p, s.parent x = some p →
                p ∈ insert current s.visited ∧ x ∈ get_valid_adjacent m p ∧
                (s.costPath p).getD 0 < (s.costPath x).getD 0 := by
              intro x _ p hp
              obtain ⟨hp1, hp2, cx, cp, hcx, hcp, hlt⟩ := hs.parent_ok x p hp
              refine ⟨Finset.mem_insert_of_mem hp1, hp2, ?_⟩
              rw [hcx, hcp]
              exact hlt
            have hdef : ∀ x ∈ insert current s.visited, x ≠ a →
                (s.parent x).isSome = true := by
              intro x hx hxa
              rcases Finset.mem_insert.mp hx with h | hx
              · rw [h] at hxa ⊢
                exact hs.parent_def current (Or.inr ⟨(f, current), hmem, rfl⟩) hxa
              · exact hs.parent_def x (Or.inl hx) hxa
            obtain ⟨l, hrev, -, -, -, -, -, -, -, -⟩ :=
              reveal_path_spec m a s.parent (insert current s.visited)
                (fun x => (s.costPath x).getD 0) hchain hdef
                ((s.costPath current).getD 0) current (le_refl _)
                (Finset.mem_insert_self _ _)
                (s.explored + 1) (by dsimp only; rw [hc₀]; simp; omega)
            exact ⟨1, by simp [a_star_search, astarStep, hext, hrev]⟩
          · have hs' := hs.step_astar hext hcg
            by_cases hcv : current ∈ s.visited
            · have hins : insert current s.visited = s.visited :=
                Finset.insert_eq_self.mpr hcv
              have hcur_nadm : current ∉ admissibleAstar m (insert current s.visited)
                  s.costPath ((s.costPath current).getD 0 + 1) current := by
                intro hc
                have hmem' := (mem_admissibleAstar.mp hc).1
                have hadj := (mem_get_valid_adjacent.mp hmem').1
                exact self_not_mem_adjacentCells current (adjacentCells_symm.mp hadj)
              by_cases hW : ∃ x ∈ admissibleAstar m (insert current s.visited) s.costPath
                  ((s.costPath current).getD 0 + 1) current, x ∈ s.visited
              · -- some visited cell is relaxed: the total recorded cost drops
                obtain ⟨x₀, hx₀adm, hx₀vis⟩ := hW
                have hGset : (insert current s.visited).sum
                    (fun x => (s.costPath x).getD 0) =
                    s.visited.sum (fun x => (s.costPath x).getD 0) := by
                  rw [hins]
                have hsum : (insert current s.visited).sum
                    (fun x => ((fun x =>
                      if x ∈ admissibleAstar m (insert current s.visited) s.costPath
                          ((s.costPath current).getD 0 + 1) current then
                        some ((s.costPath current).getD 0 + 1)
                      else s.costPath x) x).getD 0) <
                    s.visited.sum (fun x => (s.costPath x).getD 0) := by
                  rw [← hGset]
                  refine Finset.sum_lt_sum ?_
                    ⟨x₀, Finset.mem_insert_of_mem hx₀vis, ?_⟩
                  · intro x hx
                    dsimp only
                    split
                    · next hxadm =>
                      obtain ⟨-, hcond⟩ := mem_admissibleAstar.mp hxadm
                      rcases hcond with hcond | hcond
                      · exact absurd hx hcond
                      · simp
                        omega
                    · exact le_refl _
                  · dsimp only
                    rw [if_pos hx₀adm]
                    obtain ⟨-, hcond⟩ := mem_admissibleAstar.mp hx₀adm
                    rcases hcond with hcond | hcond
                    · exact absurd (Finset.mem_insert_of_mem hx₀vis) hcond
                    · simp
                      omega
                obtain ⟨fuel, hf⟩ := ih₂
                  ((insert current s.visited).sum
                    (fun x => ((fun x =>
                      if x ∈ admissibleAstar m (insert current s.visited) s.costPath
                          ((s.costPath current).getD 0 + 1) current then
                        some ((s.costPath current).getD 0 + 1)
                      else s.costPath x) x).getD 0))
                  (by omega) _ (by dsimp only; rw [hins]; exact h1) (le_refl _) hs'
                refine ⟨fuel + 1, ?_⟩
                simp only [a_star_search, astarStep]
                rw [hext]
                dsimp only
                rw [if_neg hcg]
                exact hf
              · -- no relaxation of a visited cell: visited heap entries drop
                push_neg at hW
                have hsum_eq : (insert current s.visited).sum
                    (fun x => ((fun x =>
                      if x ∈ admissibleAstar m (insert current s.visited) s.costPath
                          ((s.costPath current).getD 0 + 1) current then
                        some ((s.costPath current).getD 0 + 1)
                      else s.costPath x) x).getD 0) =
                    s.visited.sum (fun x => (s.costPath x).getD 0) := by
                  have hGset : (insert current s.visited).sum
                      (fun x => (s.costPath x).getD 0) =
                      s.visited.sum (fun x => (s.costPath x).getD 0) := by
                    rw [hins]
                  rw [← hGset]
                  refine Finset.sum_congr rfl ?_
                  intro x hx
                  dsimp only
                  rcases Finset.mem_insert.mp hx with h | hx
                  · rw [if_neg (h ▸ hcur_nadm)]
                  · rw [if_neg (fun hadm => hW x hadm hx)]
                have hfil : ((rest ++ (admissibleAstar m (insert current s.visited) s.costPath
                      ((s.costPath current).getD 0 + 1) current).map
                      (fun n => (((s.costPath current).getD 0 + 1) + heuristic_cost n g, n))).filter
                    (fun e => decide (e.2 ∈ insert current s.visited))).length <
                    (s.heap.filter (fun e => decide (e.2 ∈ s.visited))).length := by
                  rw [List.filter_append]
                  have hnil : ((admissibleAstar m (insert current s.visited) s.costPath
                      ((s.costPath current).getD 0 + 1) current).map
                      (fun n => (((s.costPath current).getD 0 + 1) + heuristic_cost n g, n))).filter
                      (fun e => decide (e.2 ∈ insert current s.visited)) = [] := by
                    rw [List.filter_eq_nil_iff]
                    intro e he
                    obtain ⟨n, hn, rfl⟩ := List.mem_map.mp he
                    have hnv : n ∉ s.visited := hW n hn
                    have hnc : n ≠ current := fun h => hnv (h ▸ hcv)
                    simp [Finset.mem_insert, hnc, hnv]
                  rw [hnil, List.append_nil]
                  have hpl : (s.heap.filter (fun e => decide (e.2 ∈ s.visited))).length =
                      (((f, current) :: rest).filter
                        (fun e => decide (e.2 ∈ s.visited))).length :=
                    (hperm.filter _).length_eq
                  have hfin : ∀ (e : ℕ × Cell),
                      (decide (e.2 ∈ insert current s.visited)) =
                        (decide (e.2 ∈ s.visited)) := by
                    intro e
                    rw [hins]
                  have hsame : (rest.filter (fun e => decide (e.2 ∈ insert current s.visited))) =
                      (rest.filter (fun e => decide (e.2 ∈ s.visited))) :=
                    List.filter_congr (fun e _ => hfin e)
                  rw [hsame, hpl, List.filter_cons]
                  have hd : decide ((f, current).2 ∈ s.visited) = true :=
                    decide_eq_true_iff.mpr hcv
                  rw [hd]
                  simp
                obtain ⟨fuel, hf⟩ := ih₃
                  (((rest ++ (admissibleAstar m (insert current s.visited) s.costPath
                      ((s.costPath current).getD 0 + 1) current).map
                      (fun n => (((s.costPath current).getD 0 + 1) + heuristic_cost n g, n))).filter
                    (fun e => decide (e.2 ∈ insert current s.visited))).length)
                  (by omega) _ (by dsimp only; rw [hins]; exact h1)
                  (by dsimp only; rw [hsum_eq]; exact h2) (le_refl _) hs'
                refine ⟨fuel + 1, ?_⟩
                simp only [a_star_search, astarStep]
                rw [hext]
                dsimp only
                rw [if_neg hcg]
                exact hf
            · -- fresh pop: the unvisited count drops
              have hcurB : current ∈ boundCells m ∪ {a} := by
                rcases hs.heap_cell _ hmem with h | h
                · exact Finset.mem_union_left _ (mem_boundCells_of_valid h)
                · exact Finset.mem_union_right _ (by simp [show current = a from h])
              have hsub : (boundCells m ∪ {a}) \ insert current s.visited ⊂
                  (boundCells m ∪ {a}) \ s.visited := by
                refine (Finset.ssubset_iff_of_subset
                  (Finset.sdiff_subset_sdiff (le_refl _) (Finset.subset_insert _ _))).mpr ?_
                exact ⟨current, Finset.mem_sdiff.mpr ⟨hcurB, hcv⟩,
                  fun h => (Finset.mem_sdiff.mp h).2 (Finset.mem_insert_self _ _)⟩
              have hlt := Finset.card_lt_card hsub
              obtain ⟨fuel, hf⟩ := ih₁
                (((boundCells m ∪ {a}) \ insert current s.visited).card)
                (by omega) _ (le_refl _) hs'
              refine ⟨fuel + 1, ?_⟩
              simp only [a_star_search, astarStep]
              rw [hext]
              dsimp only
              rw [if_neg hcg]
              exact hf

end AstarTermination

section AstarInit

variable {m : Maze} {a g : Cell}

theorem astarInit_cost_eq (a : Cell) :
    (if a = a then some 0 else none : Option ℕ) = some 0 := if_pos rfl

/-- Conclusions of a full `a_star_search` run from the initial state. -/
theorem astar_init_spec :
    ∀ fuel res, a_star_search m a g fuel (astarInit a) = some res →
      1 ≤ res.explored ∧
      (res.path = none →
        (∀ x, x ∈ res.visitedSet ↔ Reachable m a x) ∧ ¬Reachable m a g) ∧
      (∀ p, res.path = some p → p ≠ [] ∧ p.head? = some a ∧ p.getLast? = some g ∧
        p.Chain' (StepOK m) ∧ Reachable m a g ∧ p.length ≤ res.explored) := by
  intro fuel res hres
  cases fuel with
  | zero => simp [a_star_search] at hres
  | succ fuel =>
    have hext : extractMin (astarInit a).heap = some ((0, a), []) := rfl
    simp only [a_star_search, astarStep] at hres
    rw [hext] at hres
    dsimp only [astarInit] at hres
    by_cases hag : a = g
    · subst hag
      rw [if_pos rfl] at hres
      rw [show reveal_path (fun _ => none) a (0 + 1) a = some [a] from by
        simp [reveal_path]] at hres
      simp only [Option.map_some'] at hres
      obtain rfl := Option.some_injective _ hres
      refine ⟨by dsimp only; omega, fun hp => absurd hp (by simp), fun p hp => ?_⟩
      simp only at hp
      obtain rfl := Option.some_injective _ hp
      refine ⟨by simp, by simp, by simp, by simp, reachable_start m a, by simp⟩
    · rw [if_neg hag] at hres
      rw [astarInit_cost_eq a] at hres
      exact astar_run_spec fuel _ (astarInv_init hag) res hres

/-- `a_star_search` terminates from the initial state. -/
theorem astar_init_terminates :
    ∃ fuel, (a_star_search m a g fuel (astarInit a)).isSome = true := by
  have hext : extractMin (astarInit a).heap = some ((0, a), []) := rfl
  by_cases hag : a = g
  · refine ⟨1, ?_⟩
    subst hag
    simp only [a_star_search, astarStep]
    rw [hext]
    dsimp only [astarInit]
    rw [if_pos rfl]
    rw [show reveal_path (fun _ => none) a (0 + 1) a = some [a] from by
      simp [reveal_path]]
    rfl
  · obtain ⟨fuel, hf⟩ := astar_terminates _ _ (le_refl _) (astarInv_init hag)
    refine ⟨fuel + 1, ?_⟩
    simp only [a_star_search, astarStep]
    rw [hext]
    dsimp only [astarInit]
    rw [if_neg hag]
    rw [astarInit_cost_eq a]
    exact hf

/-- Every running state of the A* trace satisfies the invariant. -/
theorem astarStates_inv :
    ∀ (k : ℕ) (s : AState), astarStates m a g (k + 1) = some s →
      AstarInv m a g s := by
  intro k
  induction k with
  | zero =>
    intro s hs
    have hext : extractMin (astarInit a).heap = some ((0, a), []) := rfl
    simp only [astarStates, astarStep, Option.bind] at hs
    rw [hext] at hs
    dsimp only [astarInit] at hs
    by_cases hag : a = g
    · rw [if_pos hag] at hs
      simp at hs
    · rw [if_neg hag] at hs
      rw [astarInit_cost_eq a] at hs
      obtain rfl := Option.some_injective _ hs
      exact astarInv_init hag
  | succ k ih =>
    intro s hs
    rw [astarStates] at hs
    rcases hprev : astarStates m a g (k + 1) with _ | s₀
    · rw [hprev] at hs; simp at hs
    · rw [hprev] at hs
      simp only [Option.bind] at hs
      have hinv₀ := ih s₀ hprev
      rcases hext : extractMin s₀.heap with _ | ⟨⟨f, current⟩, rest⟩
      · simp [astarStep, hext] at hs
      · by_cases hcg : current = g
        · simp [astarStep, hext, hcg] at hs
        · simp only [astarStep] at hs
          rw [hext] at hs
          dsimp only at hs
          rw [if_neg hcg] at hs
          obtain rfl := Option.some_injective _ hs
          exact hinv₀.step_astar hext hcg

/-- The recorded cost of the start cell is `0` in every state of the A*
trace. -/
theorem astarStates_cost_start :
    ∀ (k : ℕ) (s : AState), astarStates m a g k = some s →
      s.costPath a = some 0 := by
  intro k s hs
  cases k with
  | zero =>
    simp only [astarStates] at hs
    obtain rfl := Option.some_injective _ hs
    simp [astarInit]
  | succ k => exact (astarStates_inv k s hs).cost_start

/-- Across one A* iteration, the recorded cost of an already-visited cell
never increases. -/
theorem astarStep_visited_cost {s s' : AState}
    (hvs : ∀ x ∈ s.visited, (s.costPath x).isSome = true)
    (hstep : astarStep m a g s = Sum.inr s') :
    ∀ x ∈ s.visited, ∀ v', s'.costPath x = some v' →
      ∃ v, s.costPath x = some v ∧ v' ≤ v := by
  intro x hx v' hv'
  rcases hext : extractMin s.heap with _ | ⟨⟨f, current⟩, rest⟩
  · simp [astarStep, hext] at hstep
  · simp only [astarStep] at hstep
    rw [hext] at hstep
    dsimp only at hstep
    by_cases hcg : current = g
    · rw [if_pos hcg] at hstep
      simp at hstep
    · rw [if_neg hcg] at hstep
      injection hstep with hstep
      subst hstep
      dsimp only at hv'
      split at hv'
      · next hadm =>
        obtain ⟨-, hcond⟩ := mem_admissibleAstar.mp hadm
        rcases hcond with hcond | hcond
        · exact absurd (Finset.mem_insert_of_mem hx) hcond
        · obtain ⟨v, hv⟩ := Option.isSome_iff_exists.mp (hvs x hx)
          rw [hv] at hcond
          injection hv' with hv'
          exact ⟨v, hv, by simp at hcond; omega⟩
      · exact ⟨v', hv', le_refl _⟩

end AstarInit

/-! ## Helper lemmas for the claims -/

section ClaimHelpers

/-- Every cell of a `StepOK` chain whose head is a valid location is itself a
valid location: each later cell is produced by `get_valid_adjacent`, which
only returns valid locations. -/
theorem chain'_all_valid {m : Maze} :
    ∀ (p : List Cell), p.Chain' (StepOK m) →
      (∀ y, p.head? = some y → is_valid_location m y = true) →
      ∀ x ∈ p, is_valid_location m x = true := by
  intro p
  induction p with
  | nil => intro _ _ x hx; simp at hx
  | cons h t ih =>
    intro hchain hhead x hx
    rcases List.mem_cons.mp hx with rfl | hx
    · exact hhead x rfl
    · refine ih hchain.tail ?_ x hx
      intro y hy
      cases t with
      | nil => simp at hy
      | cons h₂ t₂ =>
        obtain rfl : h₂ = y := by simpa using hy
        have hstep : StepOK m h h₂ := (List.chain'_cons.mp hchain).1
        exact (mem_get_valid_adjacent.mp hstep).2

/-- Decoding `entryLe`: the lexicographic order on cost, then row, then
column. -/
theorem entryLe_lex {e₁ e₂ : ℕ × Cell} (h : entryLe e₁ e₂ = true) :
    e₁.1 < e₂.1 ∨ (e₁.1 = e₂.1 ∧
      (e₁.2.1 < e₂.2.1 ∨ (e₁.2.1 = e₂.2.1 ∧ e₁.2.2 ≤ e₂.2.2))) := by
  unfold entryLe at h
  by_cases h1 : e₁.1 < e₂.1
  · exact Or.inl h1
  · rw [if_neg h1] at h
    by_cases h2 : e₂.1 < e₁.1
    · rw [if_pos h2] at h
      exact absurd h (by simp)
    · rw [if_neg h2] at h
      by_cases h3 : e₁.2.1 < e₂.2.1
      · exact Or.inr ⟨by omega, Or.inl h3⟩
      · rw [if_neg h3] at h
        by_cases h4 : e₂.2.1 < e₁.2.1
        · rw [if_pos h4] at h
          exact absurd h (by simp)
        · rw [if_neg h4] at h
          exact Or.inr ⟨by omega, Or.inr ⟨by omega, by simpa using h⟩⟩

/-- An exhausted breadth-first run certifies that the goal is unreachable. -/
theorem unreachable_of_bfs_none {m : Maze} {a g : Cell} {fuel : ℕ}
    {res : SearchResult}
    (hres : breadth_first_search m a g fuel (searchInit a) = some res)
    (hnone : res.path = none) : ∀ n, reachN m a n g = false := by
  obtain ⟨δ, hδ⟩ := exists_isDistFn m a
  have h := ((bfs_init_spec hδ fuel res hres).2.1 hnone).2
  intro n
  cases hn : reachN m a n g
  · rfl
  · exact absurd ⟨n, hn⟩ h

end ClaimHelpers

/-! ## The claims -/

/-- Claim C7: for every grid and cell, both neighbour generators
(`get_valid_adjacent` of mazeSearch.py/mazeSearchNOIMAGE.py and
`getValidNeighbors` of DepthFirst.py) agree and return, in the fixed order
up `(row-1, col)`, right `(row, col+1)`, down `(row+1, col)`, left
`(row, col-1)`, exactly the adjacent cells that are in bounds and not the
wall symbol; the result has at most 4 elements, and as the value of a pure
function of the grid and the cell it is stable across calls with the same
arguments. -/
theorem C7_neighbor_generator (m : Maze) (loc : Cell) :
    get_valid_adjacent m loc = getValidNeighbors m loc ∧
    get_valid_adjacent m loc =
      [(loc.1 - 1, loc.2), (loc.1, loc.2 + 1), (loc.1 + 1, loc.2),
        (loc.1, loc.2 - 1)].filter (fun n => is_valid_location m n) ∧
    (get_valid_adjacent m loc).length ≤ 4 ∧
    ∀ n, n ∈ get_valid_adjacent m loc ↔
      n ∈ [(loc.1 - 1, loc.2), (loc.1, loc.2 + 1), (loc.1 + 1, loc.2),
        (loc.1, loc.2 - 1)] ∧ is_valid_location m n = true := by
  refine ⟨get_valid_adjacent_eq_getValidNeighbors m loc,
    get_valid_adjacent_eq_filter m loc, ?_, fun n => mem_get_valid_adjacent⟩
  rw [get_valid_adjacent_eq_filter]
  exact List.length_filter_le _ _

/-- Claim C8: on every non-empty rectangular grid and for every start/goal
pair, each search loop (depth-first, both breadth-first variants, A*) runs
to completion on some finite fuel: the fuel-indexed loop returns `some`
result, whether a path is found or the frontier is exhausted — also for the
mark-on-expansion variants, which can enqueue a cell several times before
its first expansion. -/
theorem C8_termination (m : Maze) (a g : Cell) (hrect : RectGrid m) :
    (∃ fuel, (depth_first_search m a g fuel (searchInit a)).isSome = true) ∧
    (∃ fuel, (breadth_first_search m a g fuel (searchInit a)).isSome = true) ∧
    (∃ fuel, (bfsDiscovery m a g fuel (searchInit a)).isSome = true) ∧
    (∃ fuel, (a_star_search m a g fuel (astarInit a)).isSome = true) := by
  obtain ⟨δ, hδ⟩ := exists_isDistFn m a
  exact ⟨dfs_init_terminates, bfs_exp_init_terminates hδ,
    bfs_disc_init_terminates hδ, astar_init_terminates⟩

/-- Witness for C8 on the open 3×4 grid. -/
theorem C8_termination_witness :
    RectGrid openMaze ∧
    ((∃ fuel, (depth_first_search openMaze ((0 : ℤ), (0 : ℤ)) (2, 3) fuel
        (searchInit (0, 0))).isSome = true) ∧
     (∃ fuel, (breadth_first_search openMaze ((0 : ℤ), (0 : ℤ)) (2, 3) fuel
        (searchInit (0, 0))).isSome = true) ∧
     (∃ fuel, (bfsDiscovery openMaze ((0 : ℤ), (0 : ℤ)) (2, 3) fuel
        (searchInit (0, 0))).isSome = true) ∧
     (∃ fuel, (a_star_search openMaze ((0 : ℤ), (0 : ℤ)) (2, 3) fuel
        (astarInit (0, 0))).isSome = true)) :=
  ⟨by decide, C8_termination openMaze (0, 0) (2, 3) (by decide)⟩

/-- Claim C9: whenever a search loop returns, the expansion count is at
least 1 (the start cell is expanded first), and when a path is returned its
length is at most the expansion count — for all four search loops. -/
theorem C9_explored_bound (m : Maze) (a g : Cell) (hrect : RectGrid m) :
    (∀ fuel res, depth_first_search m a g fuel (searchInit a) = some res →
      1 ≤ res.explored ∧ ∀ p, res.path = some p → p.length ≤ res.explored) ∧
    (∀ fuel res, breadth_first_search m a g fuel (searchInit a) = some res →
      1 ≤ res.explored ∧ ∀ p, res.path = some p → p.length ≤ res.explored) ∧
    (∀ fuel res, bfsDiscovery m a g fuel (searchInit a) = some res →
      1 ≤ res.explored ∧ ∀ p, res.path = some p → p.length ≤ res.explored) ∧
    (∀ fuel res, a_star_search m a g fuel (astarInit a) = some res →
      1 ≤ res.explored ∧ ∀ p, res.path = some p → p.length ≤ res.explored) := by
  obtain ⟨δ, hδ⟩ := exists_isDistFn m a
  refine ⟨fun fuel res hres => ?_, fun fuel res hres => ?_,
    fun fuel res hres => ?_, fun fuel res hres => ?_⟩
  · have h := dfs_init_spec fuel res hres
    exact ⟨h.1, fun p hp => (h.2.2 p hp).2.2.2.2.2⟩
  · have h := bfs_init_spec hδ fuel res hres
    exact ⟨h.1, fun p hp => (h.2.2 p hp).2.2.2.2.2.2⟩
  · have h := bfs_disc_init_spec hδ fuel res hres
    exact ⟨h.1, fun p hp => (h.2.2 p hp).2.2.2.2.2.2⟩
  · have h := astar_init_spec fuel res hres
    exact ⟨h.1, fun p hp => (h.2.2 p hp).2.2.2.2.2⟩

/-- Witness for C9 on the open 3×4 grid. -/
theorem C9_explored_bound_witness :
    RectGrid openMaze ∧
    ((∀ fuel res, depth_first_search openMaze ((0 : ℤ), (0 : ℤ)) (2, 3) fuel
        (searchInit (0, 0)) = some res →
      1 ≤ res.explored ∧ ∀ p, res.path = some p → p.length ≤ res.explored) ∧
     (∀ fuel res, breadth_first_search openMaze ((0 : ℤ), (0 : ℤ)) (2, 3) fuel
        (searchInit (0, 0)) = some res →
      1 ≤ res.explored ∧ ∀ p, res.path = some p → p.length ≤ res.explored) ∧
     (∀ fuel res, bfsDiscovery openMaze ((0 : ℤ), (0 : ℤ)) (2, 3) fuel
        (searchInit (0, 0)) = some res →
      1 ≤ res.explored ∧ ∀ p, res.path = some p → p.length ≤ res.explored) ∧
     (∀ fuel res, a_star_search openMaze ((0 : ℤ), (0 : ℤ)) (2, 3) fuel
        (astarInit (0, 0)) = some res →
      1 ≤ res.explored ∧ ∀ p, res.path = some p → p.length ≤ res.explored)) :=
  ⟨by decide, C9_explored_bound openMaze (0, 0) (2, 3) (by decide)⟩

/-- Claim C10: when start = goal, each of the three strategies pops the
start first, matches the goal immediately, and returns the singleton path,
an expansion count of exactly 1 and the singleton visited set — with no
validity check on that cell (the start is never passed through
`is_valid_location`). -/
theorem C10_start_eq_goal (m : Maze) (a : Cell) (fuel : ℕ) (hfuel : 1 ≤ fuel) :
    depth_first_search m a a fuel (searchInit a) = some ⟨some [a], 1, {a}⟩ ∧
    breadth_first_search m a a fuel (searchInit a) = some ⟨some [a], 1, {a}⟩ ∧
    a_star_search m a a fuel (astarInit a) = some ⟨some [a], 1, {a}⟩ := by
  obtain ⟨fuel, rfl⟩ : ∃ k, fuel = k + 1 := ⟨fuel - 1, by omega⟩
  refine ⟨?_, ?_, ?_⟩
  · simp [depth_first_search, searchInit, reveal_path]
  · simp [breadth_first_search, searchInit, reveal_path]
  · have hext : extractMin (astarInit a).heap = some ((0, a), []) := rfl
    simp only [a_star_search, astarStep]
    rw [hext]
    dsimp only [astarInit]
    rw [if_pos rfl]
    rw [show reveal_path (fun _ => none) a (0 + 1) a = some [a] from by
      simp [reveal_path]]
    simp

/-- Witness for C10 on a grid whose only cell is a wall: the start is still
expanded and returned. -/
theorem C10_start_eq_goal_witness :
    1 ≤ 1 ∧
    (depth_first_search [["#"]] ((0 : ℤ), (0 : ℤ)) (0, 0) 1 (searchInit (0, 0)) =
        some ⟨some [(0, 0)], 1, {(0, 0)}⟩ ∧
     breadth_first_search [["#"]] ((0 : ℤ), (0 : ℤ)) (0, 0) 1 (searchInit (0, 0)) =
        some ⟨some [(0, 0)], 1, {(0, 0)}⟩ ∧
     a_star_search [["#"]] ((0 : ℤ), (0 : ℤ)) (0, 0) 1 (astarInit (0, 0)) =
        some ⟨some [(0, 0)], 1, {(0, 0)}⟩) :=
  ⟨by decide, C10_start_eq_goal [["#"]] (0, 0) 1 (by decide)⟩

/-- Claim C5: on every grid in which the start is a passable location and
the goal is reachable from the start by valid orthogonal moves, each of the
three strategies terminates, and any completed run returns a path: a
non-empty cell sequence whose head is the start, whose last element is the
goal, in which every consecutive pair is a valid orthogonal adjacency
(`StepOK`, membership in `get_valid_adjacent`, which forces the step target
to be in bounds and not a wall) and every cell — both ends of every step
included — is a passable location. -/
theorem C5_path_validity (m : Maze) (a g : Cell)
    (hstart : is_valid_location m a = true)
    (hconn : ∃ n, reachN m a n g = true) :
    ((∃ fuel, (depth_first_search m a g fuel (searchInit a)).isSome = true) ∧
      ∀ fuel res, depth_first_search m a g fuel (searchInit a) = some res →
        ∃ p, res.path = some p ∧ p ≠ [] ∧ p.head? = some a ∧
          p.getLast? = some g ∧ p.Chain' (StepOK m) ∧
          ∀ x ∈ p, is_valid_location m x = true) ∧
    ((∃ fuel, (breadth_first_search m a g fuel (searchInit a)).isSome = true) ∧
      ∀ fuel res, breadth_first_search m a g fuel (searchInit a) = some res →
        ∃ p, res.path = some p ∧ p ≠ [] ∧ p.head? = some a ∧
          p.getLast? = some g ∧ p.Chain' (StepOK m) ∧
          ∀ x ∈ p, is_valid_location m x = true) ∧
    ((∃ fuel, (a_star_search m a g fuel (astarInit a)).isSome = true) ∧
      ∀ fuel res, a_star_search m a g fuel (astarInit a) = some res →
        ∃ p, res.path = some p ∧ p ≠ [] ∧ p.head? = some a ∧
          p.getLast? = some g ∧ p.Chain' (StepOK m) ∧
          ∀ x ∈ p, is_valid_location m x = true) := by
  obtain ⟨δ, hδ⟩ := exists_isDistFn m a
  have hreach : Reachable m a g := hconn
  refine ⟨⟨dfs_init_terminates, fun fuel res hres => ?_⟩,
    ⟨bfs_exp_init_terminates hδ, fun fuel res hres => ?_⟩,
    ⟨astar_init_terminates, fun fuel res hres => ?_⟩⟩
  · have h := dfs_init_spec fuel res hres
    rcases hp : res.path with _ | p
    · exact absurd hreach (h.2.1 hp).2
    · obtain ⟨hne, hhead, hlast, hchain, -, -⟩ := h.2.2 p hp
      refine ⟨p, rfl, hne, hhead, hlast, hchain,
        chain'_all_valid p hchain fun y hy => ?_⟩
      rw [hhead] at hy
      obtain rfl := Option.some_injective _ hy
      exact hstart
  · have h := bfs_init_spec hδ fuel res hres
    rcases hp : res.path with _ | p
    · exact absurd hreach (h.2.1 hp).2
    · obtain ⟨hne, hhead, hlast, hchain, -, -, -⟩ := h.2.2 p hp
      refine ⟨p, rfl, hne, hhead, hlast, hchain,
        chain'_all_valid p hchain fun y hy => ?_⟩
      rw [hhead] at hy
      obtain rfl := Option.some_injective _ hy
      exact hstart
  · have h := astar_init_spec fuel res hres
    rcases hp : res.path with _ | p
    · exact absurd hreach (h.2.1 hp).2
    · obtain ⟨hne, hhead, hlast, hchain, -, -⟩ := h.2.2 p hp
      refine ⟨p, rfl, hne, hhead, hlast, hchain,
        chain'_all_valid p hchain fun y hy => ?_⟩
      rw [hhead] at hy
      obtain rfl := Option.some_injective _ hy
      exact hstart

/-- Witness for C5: the open 3×4 grid, start `(0, 0)`, goal `(2, 3)`. -/
theorem C5_path_validity_witness :
    is_valid_location openMaze ((0 : ℤ), (0 : ℤ)) = true ∧
    (∃ n, reachN openMaze ((0 : ℤ), (0 : ℤ)) n ((2 : ℤ), (3 : ℤ)) = true) ∧
    (((∃ fuel, (depth_first_search openMaze ((0 : ℤ), (0 : ℤ)) (2, 3) fuel
        (searchInit (0, 0))).isSome = true) ∧
      ∀ fuel res, depth_first_search openMaze ((0 : ℤ), (0 : ℤ)) (2, 3) fuel
          (searchInit (0, 0)) = some res →
        ∃ p, res.path = some p ∧ p ≠ [] ∧ p.head? = some ((0 : ℤ), (0 : ℤ)) ∧
          p.getLast? = some ((2 : ℤ), (3 : ℤ)) ∧ p.Chain' (StepOK openMaze) ∧
          ∀ x ∈ p, is_valid_location openMaze x = true) ∧
     ((∃ fuel, (breadth_first_search openMaze ((0 : ℤ), (0 : ℤ)) (2, 3) fuel
        (searchInit (0, 0))).isSome = true) ∧
      ∀ fuel res, breadth_first_search openMaze ((0 : ℤ), (0 : ℤ)) (2, 3) fuel
          (searchInit (0, 0)) = some res →
        ∃ p, res.path = some p ∧ p ≠ [] ∧ p.head? = some ((0 : ℤ), (0 : ℤ)) ∧
          p.getLast? = some ((2 : ℤ), (3 : ℤ)) ∧ p.Chain' (StepOK openMaze) ∧
          ∀ x ∈ p, is_valid_location openMaze x = true) ∧
     ((∃ fuel, (a_star_search openMaze ((0 : ℤ), (0 : ℤ)) (2, 3) fuel
        (astarInit (0, 0))).isSome = true) ∧
      ∀ fuel res, a_star_search openMaze ((0 : ℤ), (0 : ℤ)) (2, 3) fuel
          (astarInit (0, 0)) = some res →
        ∃ p, res.path = some p ∧ p ≠ [] ∧ p.head? = some ((0 : ℤ), (0 : ℤ)) ∧
          p.getLast? = some ((2 : ℤ), (3 : ℤ)) ∧ p.Chain' (StepOK openMaze) ∧
          ∀ x ∈ p, is_valid_location openMaze x = true)) :=
  ⟨by decide, ⟨5, by decide⟩,
    C5_path_validity openMaze (0, 0) (2, 3) (by decide) ⟨5, by decide⟩⟩

/-- Claim C6: on every grid in which no walk of valid moves reaches the goal
from the start, each of the three strategies of mazeSearchNOIMAGE.py (the
ones that return their visited set) terminates normally with an absent path
(`none`, not an exception — the embedding returns `none` inside `some`
result, never a failure), and the returned visited set is exactly the set
of cells reachable from the start through passable orthogonal moves. -/
theorem C6_unreachable (m : Maze) (a g : Cell)
    (hunreach : ∀ n, reachN m a n g = false) :
    ((∃ fuel, (depth_first_search m a g fuel (searchInit a)).isSome = true) ∧
      ∀ fuel res, depth_first_search m a g fuel (searchInit a) = some res →
        res.path = none ∧ ∀ x, x ∈ res.visitedSet ↔ ∃ n, reachN m a n x = true) ∧
    ((∃ fuel, (breadth_first_search m a g fuel (searchInit a)).isSome = true) ∧
      ∀ fuel res, breadth_first_search m a g fuel (searchInit a) = some res →
        res.path = none ∧ ∀ x, x ∈ res.visitedSet ↔ ∃ n, reachN m a n x = true) ∧
    ((∃ fuel, (a_star_search m a g fuel (astarInit a)).isSome = true) ∧
      ∀ fuel res, a_star_search m a g fuel (astarInit a) = some res →
        res.path = none ∧ ∀ x, x ∈ res.visitedSet ↔ ∃ n, reachN m a n x = true) := by
  obtain ⟨δ, hδ⟩ := exists_isDistFn m a
  have hnr : ¬Reachable m a g := by
    rintro ⟨n, hn⟩
    rw [hunreach n] at hn
    exact absurd hn (by simp)
  refine ⟨⟨dfs_init_terminates, fun fuel res hres => ?_⟩,
    ⟨bfs_exp_init_terminates hδ, fun fuel res hres => ?_⟩,
    ⟨astar_init_terminates, fun fuel res hres => ?_⟩⟩
  · have h := dfs_init_spec fuel res hres
    rcases hp : res.path with _ | p
    · exact ⟨rfl, fun x => (h.2.1 hp).1 x⟩
    · exact absurd (h.2.2 p hp).2.2.2.2.1 hnr
  · have h := bfs_init_spec hδ fuel res hres
    rcases hp : res.path with _ | p
    · exact ⟨rfl, fun x => (h.2.1 hp).1 x⟩
    · exact absurd (h.2.2 p hp).2.2.2.2.2.1 hnr
  · have h := astar_init_spec fuel res hres
    rcases hp : res.path with _ | p
    · exact ⟨rfl, fun x => (h.2.1 hp).1 x⟩
    · exact absurd (h.2.2 p hp).2.2.2.2.1 hnr

/-- Witness for C6: the wall-split 3×3 grid, start `(0, 0)` in the left
column, goal `(0, 2)` in the unreachable right column.  Unreachability is
certified by an exhausted breadth-first run on the same grid. -/
theorem C6_unreachable_witness :
    (∀ n, reachN splitMaze ((0 : ℤ), (0 : ℤ)) n ((0 : ℤ), (2 : ℤ)) = false) ∧
    (((∃ fuel, (depth_first_search splitMaze ((0 : ℤ), (0 : ℤ)) (0, 2) fuel
        (searchInit (0, 0))).isSome = true) ∧
      ∀ fuel res, depth_first_search splitMaze ((0 : ℤ), (0 : ℤ)) (0, 2) fuel
          (searchInit (0, 0)) = some res →
        res.path = none ∧ ∀ x, x ∈ res.visitedSet ↔
          ∃ n, reachN splitMaze ((0 : ℤ), (0 : ℤ)) n x = true) ∧
     ((∃ fuel, (breadth_first_search splitMaze ((0 : ℤ), (0 : ℤ)) (0, 2) fuel
        (searchInit (0, 0))).isSome = true) ∧
      ∀ fuel res, breadth_first_search splitMaze ((0 : ℤ), (0 : ℤ)) (0, 2) fuel
          (searchInit (0, 0)) = some res →
        res.path = none ∧ ∀ x, x ∈ res.visitedSet ↔
          ∃ n, reachN splitMaze ((0 : ℤ), (0 : ℤ)) n x = true) ∧
     ((∃ fuel, (a_star_search splitMaze ((0 : ℤ), (0 : ℤ)) (0, 2) fuel
        (astarInit (0, 0))).isSome = true) ∧
      ∀ fuel res, a_star_search splitMaze ((0 : ℤ), (0 : ℤ)) (0, 2) fuel
          (astarInit (0, 0)) = some res →
        res.path = none ∧ ∀ x, x ∈ res.visitedSet ↔
          ∃ n, reachN splitMaze ((0 : ℤ), (0 : ℤ)) n x = true)) := by
  have hb : (breadth_first_search splitMaze ((0 : ℤ), (0 : ℤ)) (0, 2) 10
      (searchInit (0, 0))).map SearchResult.path = some none := by decide
  have hu : ∀ n, reachN splitMaze ((0 : ℤ), (0 : ℤ)) n ((0 : ℤ), (2 : ℤ)) = false := by
    rcases hres : breadth_first_search splitMaze ((0 : ℤ), (0 : ℤ)) (0, 2) 10
        (searchInit (0, 0)) with _ | res
    · rw [hres] at hb
      exact absurd hb (by simp)
    · rw [hres] at hb
      simp only [Option.map_some'] at hb
      exact unreachable_of_bfs_none hres (Option.some_injective _ hb)
  exact ⟨hu, C6_unreachable splitMaze (0, 0) (0, 2) hu⟩

/-- Counterexample to claim C1 for A*: on `cexMaze`, a non-empty rectangular
grid, the A* run from `(1, 3)` to `(0, 0)` returns a 7-cell path (6 edges)
although a 4-move walk from the start to the goal exists
(`reachN cexMaze (1, 3) 4 (0, 0)`).  The returned path is not shortest: a
visited cell whose recorded cost is later relaxed keeps its stale parent. -/
theorem C1_counterexample :
    (a_star_search cexMaze (1, 3) (0, 0) 50 (astarInit (1, 3))).map
        (fun r => (r.path, r.explored)) =
      some (some [(1, 3), (0, 3), (0, 2), (1, 2), (1, 1), (1, 0), (0, 0)], 7) ∧
    reachN cexMaze (1, 3) 4 (0, 0) = true ∧ RectGrid cexMaze := by decide

/-- Claim C1 (corrected): the shortest-path guarantee holds for the two
breadth-first variants — the mark-on-expansion `breadth_first_search` of
mazeSearch.py/mazeSearchNOIMAGE.py and the mark-on-discovery `bfs` of
DepthFirst.py (`bfsDiscovery`): whenever the goal is reachable, every
completed run returns a path whose edge count `p.length - 1` is the length
of a valid walk from start to goal and is minimal among all such walk
lengths.  A* has no such guarantee (see `C1_counterexample`): the claim's
inclusion of A* is refuted. -/
theorem C1_bfs_optimal (m : Maze) (a g : Cell)
    (hconn : ∃ n, reachN m a n g = true) :
    (∀ fuel res, breadth_first_search m a g fuel (searchInit a) = some res →
      ∃ p, res.path = some p ∧ p ≠ [] ∧
        reachN m a (p.length - 1) g = true ∧
        ∀ k, reachN m a k g = true → p.length - 1 ≤ k) ∧
    (∀ fuel res, bfsDiscovery m a g fuel (searchInit a) = some res →
      ∃ p, res.path = some p ∧ p ≠ [] ∧
        reachN m a (p.length - 1) g = true ∧
        ∀ k, reachN m a k g = true → p.length - 1 ≤ k) := by
  obtain ⟨δ, hδ⟩ := exists_isDistFn m a
  have hreach : Reachable m a g := hconn
  constructor
  · intro fuel res hres
    have h := bfs_init_spec hδ fuel res hres
    rcases hp : res.path with _ | p
    · exact absurd hreach (h.2.1 hp).2
    · obtain ⟨hne, -, -, -, hlen, -, -⟩ := h.2.2 p hp
      refine ⟨p, rfl, hne, ?_, fun k hk => ?_⟩
      · rw [hlen]
        simpa using hδ.reach hreach
      · rw [hlen]
        simpa using hδ.le hk
  · intro fuel res hres
    have h := bfs_disc_init_spec hδ fuel res hres
    rcases hp : res.path with _ | p
    · exact absurd hreach (h.2.1 hp)
    · obtain ⟨hne, -, -, -, hlen, -, -⟩ := h.2.2 p hp
      refine ⟨p, rfl, hne, ?_, fun k hk => ?_⟩
      · rw [hlen]
        simpa using hδ.reach hreach
      · rw [hlen]
        simpa using hδ.le hk

/-- Witness for the corrected C1: the open 3×4 grid, start `(0, 0)`, goal
`(2, 3)`. -/
theorem C1_bfs_optimal_witness :
    (∃ n, reachN openMaze ((0 : ℤ), (0 : ℤ)) n ((2 : ℤ), (3 : ℤ)) = true) ∧
    ((∀ fuel res, breadth_first_search openMaze ((0 : ℤ), (0 : ℤ)) (2, 3) fuel
        (searchInit (0, 0)) = some res →
      ∃ p, res.path = some p ∧ p ≠ [] ∧
        reachN openMaze ((0 : ℤ), (0 : ℤ)) (p.length - 1) ((2 : ℤ), (3 : ℤ)) = true ∧
        ∀ k, reachN openMaze ((0 : ℤ), (0 : ℤ)) k ((2 : ℤ), (3 : ℤ)) = true →
          p.length - 1 ≤ k) ∧
     (∀ fuel res, bfsDiscovery openMaze ((0 : ℤ), (0 : ℤ)) (2, 3) fuel
        (searchInit (0, 0)) = some res →
      ∃ p, res.path = some p ∧ p ≠ [] ∧
        reachN openMaze ((0 : ℤ), (0 : ℤ)) (p.length - 1) ((2 : ℤ), (3 : ℤ)) = true ∧
        ∀ k, reachN openMaze ((0 : ℤ), (0 : ℤ)) k ((2 : ℤ), (3 : ℤ)) = true →
          p.length - 1 ≤ k)) :=
  ⟨⟨5, by decide⟩, C1_bfs_optimal openMaze (0, 0) (2, 3) ⟨5, by decide⟩⟩

/-- Counterexample to claim C2: on the open 3×4 grid, run from `(0, 0)`
towards `(2, 3)`.  After 4 iterations the cell `(1, 1)` has recorded cost 2
and exactly one heap entry, and the next pop takes `(1, 0)`, whose recorded
cost is 1, so the tentative cost for its neighbour `(1, 1)` is 2 — not
strictly lower than the recorded 2, and `(1, 1)` has a recorded cost.  Yet
after the fifth iteration `(1, 1)` has two heap entries and its parent was
rewritten to `(1, 0)`: the push happened because `(1, 1)` was still
unvisited, refuting the claimed "if and only if" condition. -/
theorem C2_counterexample :
    (astarStates openMaze (0, 0) (2, 3) 4).map (fun s =>
      (s.costPath (1, 1),
        (s.heap.filter (fun e => decide (e.2 = ((1 : ℤ), (1 : ℤ))))).length,
        (extractMin s.heap).map (fun er => (er.1.2, s.costPath er.1.2)))) =
      some (some 2, 1, some ((1, 0), some 1)) ∧
    (astarStates openMaze (0, 0) (2, 3) 5).map (fun s =>
      (s.costPath (1, 1),
        (s.heap.filter (fun e => decide (e.2 = ((1 : ℤ), (1 : ℤ))))).length,
        s.parent (1, 1))) = some (some 2, 2, some (1, 0)) := by
  exact ⟨by decide, by decide⟩

/-- Claim C2 (corrected): the admission test of the A* relaxation compares
against the visited set, not against the presence of a recorded cost: when
the popped cell `current` is not the goal, the loop pushes exactly those
passable neighbours `n` that are unvisited (once `current` is marked) or
whose tentative cost `costPath[current] + 1` is strictly below `costPath[n]`
(a `KeyError` read of an absent cost is modelled as `getD 0`; on unvisited
cells with a recorded cost the push happens regardless of the comparison).
Every pushed neighbour gets its cost set to the tentative cost, its parent
set to `current`, and a heap entry keyed by the tentative cost plus the
Manhattan heuristic to the goal; every other cell keeps its cost and parent
unchanged. -/
theorem C2_relaxation (m : Maze) (start goal : Cell) (s : AState)
    (f : ℕ) (current : Cell) (rest : List (ℕ × Cell))
    (hext : extractMin s.heap = some ((f, current), rest))
    (hcg : current ≠ goal) :
    ∃ s', astarStep m start goal s = Sum.inr s' ∧
      (∀ n, n ∈ admissibleAstar m (insert current s.visited) s.costPath
            ((s.costPath current).getD 0 + 1) current ↔
          n ∈ get_valid_adjacent m current ∧
            (n ∉ insert current s.visited ∨
              (s.costPath current).getD 0 + 1 < (s.costPath n).getD 0)) ∧
      s'.heap = rest ++ (admissibleAstar m (insert current s.visited) s.costPath
            ((s.costPath current).getD 0 + 1) current).map
            (fun n => ((s.costPath current).getD 0 + 1 + heuristic_cost n goal, n)) ∧
      (∀ n ∈ admissibleAstar m (insert current s.visited) s.costPath
            ((s.costPath current).getD 0 + 1) current,
          s'.costPath n = some ((s.costPath current).getD 0 + 1) ∧
          s'.parent n = some current) ∧
      (∀ n, n ∉ admissibleAstar m (insert current s.visited) s.costPath
            ((s.costPath current).getD 0 + 1) current →
          s'.costPath n = s.costPath n ∧ s'.parent n = s.parent n) := by
  have hstep : astarStep m start goal s = Sum.inr
      ⟨rest ++ (admissibleAstar m (insert current s.visited) s.costPath
            ((s.costPath current).getD 0 + 1) current).map
            (fun n => ((s.costPath current).getD 0 + 1 + heuristic_cost n goal, n)),
       insert current s.visited,
       updParent s.parent (admissibleAstar m (insert current s.visited) s.costPath
         ((s.costPath current).getD 0 + 1) current) current,
       fun x => if x ∈ admissibleAstar m (insert current s.visited) s.costPath
             ((s.costPath current).getD 0 + 1) current then
           some ((s.costPath current).getD 0 + 1)
         else s.costPath x,
       s.explored + 1⟩ := by
    simp only [astarStep]
    rw [hext]
    dsimp only
    rw [if_neg hcg]
  refine ⟨_, hstep, fun n => mem_admissibleAstar, rfl, fun n hn => ?_, fun n hn => ?_⟩
  · constructor
    · dsimp only
      rw [if_pos hn]
    · dsimp only
      simp only [updParent]
      rw [if_pos hn]
  · constructor
    · dsimp only
      rw [if_neg hn]
    · dsimp only
      simp only [updParent]
      rw [if_neg hn]

/-- Witness for the corrected C2: the first A* step on the open 3×4 grid
pushes the neighbour `(1, 0)` of the popped start with cost 1 and parent
`(0, 0)`. -/
theorem C2_relaxation_witness :
    extractMin (astarInit ((0 : ℤ), (0 : ℤ))).heap = some ((0, (0, 0)), []) ∧
    ((0 : ℤ), (0 : ℤ)) ≠ ((2 : ℤ), (3 : ℤ)) ∧
    ∃ s', astarStep openMaze (0, 0) (2, 3) (astarInit (0, 0)) = Sum.inr s' ∧
      s'.costPath (1, 0) = some 1 ∧ s'.parent (1, 0) = some (0, 0) := by
  refine ⟨by decide, by decide, ?_⟩
  obtain ⟨s', hs', -, -, hpush, -⟩ := C2_relaxation openMaze (0, 0) (2, 3)
    (astarInit (0, 0)) 0 (0, 0) [] (by decide) (by decide)
  have h := hpush (1, 0) (by decide)
  exact ⟨s', hs', h.1, h.2⟩

/-- Counterexample to claim C3: on the open 3×4 grid, run from `(0, 1)`
towards `(2, 0)`.  The recorded cost of the (still unvisited) cell `(1, 1)`
is 1 after two iterations and 3 after three: `costPath[n] = newCost` is an
unconditional overwrite, so a cell admitted because it is unvisited can
have its recorded cost increased. -/
theorem C3_counterexample :
    (astarStates openMaze (0, 1) (2, 0) 2).map (fun s => s.costPath (1, 1)) =
      some (some 1) ∧
    (astarStates openMaze (0, 1) (2, 0) 3).map (fun s => s.costPath (1, 1)) =
      some (some 3) := ⟨by decide, by decide⟩

/-- Claim C3 (corrected): the non-increase invariant holds for visited
cells only — across every loop iteration of any single A* run, the recorded
cost of an already-visited cell never increases — and the start cell's
recorded cost is 0 in every state of the run.  For unvisited cells the
recorded cost can grow (see `C3_counterexample`), refuting the claim's
unrestricted monotonicity. -/
theorem C3_visited_cost_monotone (m : Maze) (a g : Cell) (k : ℕ) (s s' : AState)
    (hs : astarStates m a g k = some s)
    (hs' : astarStates m a g (k + 1) = some s') :
    (∀ x ∈ s.visited, ∀ v', s'.costPath x = some v' →
      ∃ v, s.costPath x = some v ∧ v' ≤ v) ∧
    s.costPath a = some 0 ∧ s'.costPath a = some 0 := by
  have hstep : astarStep m a g s = Sum.inr s' := by
    rw [astarStates] at hs'
    rw [hs] at hs'
    simp only [Option.bind] at hs'
    rcases hstepc : astarStep m a g s with r | s₀ <;> rw [hstepc] at hs'
    · simp at hs'
    · obtain rfl := Option.some_injective _ hs'
      rfl
  have hvs : ∀ x ∈ s.visited, (s.costPath x).isSome = true := by
    cases k with
    | zero =>
      rw [astarStates] at hs
      obtain rfl := Option.some_injective _ hs
      intro x hx
      simp [astarInit] at hx
    | succ j => exact (astarStates_inv j s hs).cost_vis
  exact ⟨astarStep_visited_cost hvs hstep, astarStates_cost_start k s hs,
    astarStates_cost_start (k + 1) s' hs'⟩

/-- Witness for the corrected C3: the first A* step on the open 3×4 grid. -/
theorem C3_visited_cost_monotone_witness :
    ∃ s', astarStates openMaze (0, 0) (2, 3) 1 = some s' ∧
      ((∀ x ∈ (astarInit ((0 : ℤ), (0 : ℤ))).visited, ∀ v', s'.costPath x = some v' →
          ∃ v, (astarInit ((0 : ℤ), (0 : ℤ))).costPath x = some v ∧ v' ≤ v) ∧
        (astarInit ((0 : ℤ), (0 : ℤ))).costPath (0, 0) = some 0 ∧
        s'.costPath (0, 0) = some 0) := by
  rcases hs' : astarStates openMaze (0, 0) (2, 3) 1 with _ | s'
  · have h1 : (astarStates openMaze ((0 : ℤ), (0 : ℤ)) ((2 : ℤ), (3 : ℤ)) 1).isSome =
        true := rfl
    rw [hs'] at h1
    exact absurd h1 (by simp)
  · exact ⟨s', rfl, C3_visited_cost_monotone openMaze (0, 0) (2, 3) 0
      (astarInit (0, 0)) s' rfl hs'⟩

/-- Counterexample to claim C4: on the open 3×4 grid, run from `(0, 0)`
towards `(2, 3)`.  After two iterations the heap — which preserves insertion
order among surviving entries: pops remove one entry without reordering the
rest, pushes append on the right — is
`[(5, (1, 0)), (5, (0, 2)), (5, (1, 1))]`, three entries with the same key
5, yet the pop returns `(5, (0, 2))`, not the earliest-pushed `(5, (1, 0))`:
`heapq` on `(cost, cell)` tuples breaks key ties by comparing the cell
tuples, not by insertion order. -/
theorem C4_counterexample :
    (astarStates openMaze (0, 0) (2, 3) 2).map (fun s =>
      (s.heap, (extractMin s.heap).map (fun e => e.1))) =
      some ([(5, (1, 0)), (5, (0, 2)), (5, (1, 1))], some (5, (0, 2))) := by decide

/-- Claim C4 (corrected): every pop returns an entry whose key (recorded
cost plus heuristic) is minimal among all heap entries, but ties on the key
are broken by the lexicographic order on the cell — lower row first, then
lower column — not by heap insertion order. -/
theorem C4_pop_lex_min (s : AState) (e : ℕ × Cell) (l' : List (ℕ × Cell))
    (h : extractMin s.heap = some (e, l')) :
    e ∈ s.heap ∧ s.heap.Perm (e :: l') ∧
      ∀ e' ∈ s.heap, e.1 < e'.1 ∨ (e.1 = e'.1 ∧
        (e.2.1 < e'.2.1 ∨ (e.2.1 = e'.2.1 ∧ e.2.2 ≤ e'.2.2))) := by
  obtain ⟨hmem, hperm, hmin⟩ := extractMin_spec h
  exact ⟨hmem, hperm, fun e' he' => entryLe_lex (hmin e' he')⟩

/-- Witness for the corrected C4: the initial A* heap. -/
theorem C4_pop_lex_min_witness :
    extractMin (astarInit ((0 : ℤ), (0 : ℤ))).heap = some ((0, (0, 0)), []) ∧
    ((0, ((0 : ℤ), (0 : ℤ))) ∈ (astarInit ((0 : ℤ), (0 : ℤ))).heap ∧
      (astarInit ((0 : ℤ), (0 : ℤ))).heap.Perm [(0, (0, 0))] ∧
      ∀ e' ∈ (astarInit ((0 : ℤ), (0 : ℤ))).heap,
        (0, ((0 : ℤ), (0 : ℤ))).1 < e'.1 ∨ ((0, ((0 : ℤ), (0 : ℤ))).1 = e'.1 ∧
          ((0, ((0 : ℤ), (0 : ℤ))).2.1 < e'.2.1 ∨
            ((0, ((0 : ℤ), (0 : ℤ))).2.1 = e'.2.1 ∧
              (0, ((0 : ℤ), (0 : ℤ))).2.2 ≤ e'.2.2)))) :=
  ⟨by decide, C4_pop_lex_min (astarInit (0, 0)) (0, (0, 0)) [] (by decide)⟩

end MazeSearch
